import Mathlib

/-!
# Verification of `@elysiajs/openapi` (schema aggregation core)

A shallow embedding, in Lean 4, of the schema-synthesis core of the
`elysia-openapi` repository (file `src/openapi.ts`, its current revision, plus
`src/gen/index.ts`), together with theorems settling the frozen claims about
its specification.

Modelling conventions:
* JavaScript schema values that can sit in a route's schema slot are modelled
  by the inductive type `SV`: a string (a named reference alias), a
  TypeBox/JSON-schema object (`SV.tb`, whose fields mirror the fields the
  source reads or writes; an `Option` field models presence of the key), a
  standard-schema vendor object (`SV.vendor`, carrying the conversion
  methods the source probes, each modelled by the one-shot outcome of calling
  it — a value or a thrown error), or `SV.other`, an opaque JS value that
  is not schema-shaped (array, boolean, plain object, ...), carrying only its
  truthiness, which is all the source ever observes about such values.
* The TypeBox `Kind` symbol is modelled by the `kindSym` field (`none` means
  the symbol is absent, i.e. a plain JSON-schema object).
* JavaScript exceptions are modelled with `Except String`; a `try`/`catch`
  block becomes a `match` on the `Except` value.
* JavaScript objects used as finite maps are association lists in insertion
  order; `Object.entries` is the list itself, and `obj[k] = v` is
  `setKey` (update in place if present, else append).
-/

set_option maxHeartbeats 1000000
set_option maxRecDepth 100000

namespace ElysiaOpenapi

/-- A JavaScript literal value, as it can appear in `const`. -/
inductive Lit where
  | str (s : String)
  | num (n : Int)
  | bool (b : Bool)
deriving DecidableEq, Repr

/-- JS truthiness of a literal. -/
def Lit.truthy : Lit → Bool
  | .str s => s ≠ ""
  | .num n => n ≠ 0
  | .bool b => b

/-- The schema-object fields read or written by the source, parameterised by
the type of nested schema values. An `Option` field models presence of the
corresponding JavaScript key. -/
structure TBF (α : Type) where
  /-- value of the TypeBox `Kind` symbol; `none` = plain JSON-schema object -/
  kindSym : Option String := none
  type : Option String := none
  properties : Option (List (String × α)) := none
  required : Option (List String) := none
  additionalProperties : Option Bool := none
  items : Option α := none
  anyOf : Option (List α) := none
  allOf : Option (List α) := none
  constV : Option Lit := none
  enumV : Option (List Lit) := none
  description : Option String := none
  refV : Option String := none

/-- Result of a JS method call that may throw: an error or a value
(`none` = the method returned `undefined`). -/
abbrev JsRes (α : Type) := Except String (Option α)

/-- A standard-schema vendor object (`'~standard' in schema`), carrying the
fields the source probes. Each conversion method on the object is a thunk the
source invokes at most once per unwrap, so it is modelled by the outcome of
that one invocation: `none` = the method is absent, `some r` = the method is
present and produces `r` (a value, or a thrown error) when called. -/
structure VendorF (α : Type) where
  vendorName : String
  /-- `schema['~standard'].jsonSchema.input`, if present -/
  jsonSchemaIn : Option (Except String (Option α)) := none
  /-- `schema['~standard'].jsonSchema.output`, if present -/
  jsonSchemaOut : Option (Except String (Option α)) := none
  /-- whether `'_zod' in schema` -/
  hasZodField : Bool := false
  /-- `schema.toJSONSchema`, if present -/
  methodUpper : Option (Except String (Option α)) := none
  /-- `schema.toJsonSchema`, if present -/
  methodLower : Option (Except String (Option α)) := none

/-- A JavaScript value that can occupy a schema slot or a schema field. -/
inductive SV : Type where
  | str (s : String)
  | tb (f : TBF SV)
  | vendor (v : VendorF SV)
  /-- an opaque non-schema JS value (array, boolean, plain object, ...);
  only its truthiness is ever observed by the source -/
  | other (truthy : Bool)

/-- The fields of a `tb` value (auxiliary projection). -/
def SV.fieldsD : SV → TBF SV
  | .tb f => f
  | _ => {}

/-- JS truthiness of a slot value. -/
def SV.truthy : SV → Bool
  | .str s => s ≠ ""
  | .tb _ => true
  | .vendor _ => true
  | .other b => b

/-- `schema.type` (property access; `undefined` on non-objects). -/
def SV.typeF : SV → Option String
  | .tb f => f.type
  | _ => none

/-- `schema.properties`. -/
def SV.propertiesF : SV → Option (List (String × SV))
  | .tb f => f.properties
  | _ => none

/-- `schema.required`. -/
def SV.requiredF : SV → Option (List String)
  | .tb f => f.required
  | _ => none

/-- `schema.items`. -/
def SV.itemsF : SV → Option SV
  | .tb f => f.items
  | _ => none

/-- `schema.$ref`. -/
def SV.refF : SV → Option String
  | .tb f => f.refV
  | _ => none

/-- `Kind in schema` (the TypeBox symbol is present). -/
def SV.kindIn : SV → Bool
  | .tb f => f.kindSym.isSome
  | _ => false

/-- `schema[Kind]`. -/
def SV.kindValue : SV → Option String
  | .tb f => f.kindSym
  | _ => none

/-- `typeof schema === 'object'` (all modelled non-string values are objects;
`SV.other` with truthiness `false` stands for a falsy non-string primitive,
which is not an object). -/
def SV.isObjectTy : SV → Bool
  | .str _ => false
  | .tb _ => true
  | .vendor _ => true
  | .other b => b

/-- `'~standard' in schema` / truthiness of `schema['~standard']`. -/
def SV.hasStandard : SV → Bool
  | .vendor _ => true
  | _ => false

/-- Association-list lookup (`obj[k]` on a JS object, by key). -/
def lookupKey {α : Type} (l : List (String × α)) (k : String) : Option α :=
  (l.find? (fun p => p.1 = k)).map (·.2)

/-- `obj[k] = v` on a JS object: overwrite in place if the key is present,
else append (insertion order). -/
def setKey {α : Type} (l : List (String × α)) (k : String) (v : α) :
    List (String × α) :=
  if (l.find? (fun p => p.1 = k)).isSome then
    l.map (fun p => if p.1 = k then (k, v) else p)
  else l ++ [(k, v)]

/-- Object spread `{...a, ...b}` on property maps: keys of `a` in order, the
value taken from `b` when `b` also has the key, then the keys only `b` has,
in order. -/
def spreadProps {α : Type} (a b : List (String × α)) : List (String × α) :=
  a.map (fun p => (p.1, ((lookupKey b p.1).getD p.2))) ++
    b.filter (fun p => (lookupKey a p.1).isNone)

/-- `[...new Set(l)]`: deduplicate keeping the first occurrence, in order. -/
def dedupFirstAux (seen : List String) : List String → List String
  | [] => []
  | x :: xs =>
    if x ∈ seen then dedupFirstAux seen xs
    else x :: dedupFirstAux (x :: seen) xs

/-- `[...new Set(l)]`. -/
def dedupFirst (l : List String) : List String := dedupFirstAux [] l

/-- Truthiness of an optional JS property value (`undefined` when absent). -/
def optTruthy : Option SV → Bool
  | some v => v.truthy
  | none => false

/-- `item && typeof item === 'object' && item.const !== undefined`
(the per-member test of the enum-folding guard in `enumToOpenApi`). -/
def hasConst : SV → Bool
  | .tb g => g.constV.isSome
  | _ => false

/-- `item.const` of a member that passed `hasConst` (dummy otherwise). -/
def constOf : SV → Lit
  | .tb g => g.constV.getD (.str "")
  | _ => .str ""

/-- `schema.anyOf && Array.isArray(schema.anyOf) && schema.anyOf.length > 0 &&
schema.anyOf.every(item => item && typeof item === 'object' &&
item.const !== undefined)`. -/
def unionAllConst : Option (List SV) → Bool
  | some l => !l.isEmpty && l.all hasConst
  | none => false

theorem sizeOf_props_lt {props : List (String × SV)} (f : TBF SV)
    (h : f.properties = some props) : sizeOf props < sizeOf (SV.tb f) := by
  cases f
  simp_all
  omega

theorem sizeOf_item_lt {v : SV} (f : TBF SV) (h : f.items = some v) :
    sizeOf v < sizeOf (SV.tb f) := by
  cases f
  simp_all
  omega

mutual

/-- `enumToOpenApi` (src/openapi.ts): fold a TypeBox union of constant-only
members into `{type: 'string', enum: [...]}`, recursing into object
properties and array items. -/
def enumToOpenApi (s : SV) : SV :=
  match s with
  | .tb f =>
    -- `if (Kind in _schema)` and the union-of-constants guard
    if f.kindSym = some "Union" && unionAllConst f.anyOf then
      .tb { type := some "string",
            enumV := some (((f.anyOf).getD []).map constOf) }
    -- `if (schema.type === 'object' && schema.properties)`
    else if hob : (f.type = some "object" && f.properties.isSome : Bool) then
      .tb { f with properties := some (enumProps ((f.properties).getD [])) }
    -- `if (schema.type === 'array' && schema.items)`
    else if har : (f.type = some "array" && optTruthy f.items : Bool) then
      .tb { f with items := some (enumToOpenApi ((f.items).getD (.other false))) }
    else .tb f
  -- `if (!_schema || typeof _schema !== 'object') return _schema` and the
  -- fall-through for objects without schema-shaped type fields
  | s => s
termination_by sizeOf s
decreasing_by
  · obtain ⟨props, hp⟩ := Option.isSome_iff_exists.mp (by
      simpa using (Bool.and_eq_true _ _ ▸ hob).2)
    simp only [hp, Option.getD_some]
    exact sizeOf_props_lt f hp
  · have hi : ∃ v, f.items = some v := by
      rcases h' : f.items with _ | v
      · simp [optTruthy, h'] at har
      · exact ⟨v, rfl⟩
    obtain ⟨v, hv⟩ := hi
    simp only [hv, Option.getD_some]
    exact sizeOf_item_lt f hv

/-- `for (const [key, value] of Object.entries(schema.properties))
properties[key] = enumToOpenApi(value)`. -/
def enumProps (l : List (String × SV)) : List (String × SV) :=
  match l with
  | [] => []
  | (k, v) :: r => (k, enumToOpenApi v) :: enumProps r
termination_by sizeOf l
decreasing_by
  · simp <;> omega
  · simp <;> omega

end

/-- `enumToOpenApi` applied to a possibly-`undefined` value (the source calls
it on expressions that may be `undefined`; `enumToOpenApi(undefined)` is
`undefined`). -/
def enumToOpenApiO : Option SV → Option SV
  | some v => some (enumToOpenApi v)
  | none => none

theorem enumProps_eq_map (l : List (String × SV)) :
    enumProps l = l.map (fun p => (p.1, enumToOpenApi p.2)) := by
  induction l with
  | nil => simp [enumProps]
  | cons hd tl ih =>
    obtain ⟨k, v⟩ := hd
    simp [enumProps, ih]

/-- C8: a union all of whose members are single-constant schemas is folded by
normalization (`enumToOpenApi`) to `{type: 'string', enum: [the constants, in
member order]}`; the folding recurses into object properties and array item
schemas; and a union with a non-constant member (and no `type` field, as
TypeBox unions have none) is returned unchanged at that level. -/
theorem claim_C8_enum_folding :
    (∀ (f : TBF SV) (l : List SV),
      f.kindSym = some "Union" → f.anyOf = some l → l ≠ [] →
      (∀ x ∈ l, hasConst x = true) →
      enumToOpenApi (.tb f) =
        .tb { type := some "string", enumV := some (l.map constOf) }) ∧
    (∀ (f : TBF SV) (props : List (String × SV)),
      (f.kindSym = some "Union" && unionAllConst f.anyOf) = false →
      f.type = some "object" → f.properties = some props →
      enumToOpenApi (.tb f) =
        .tb { f with
              properties := some (props.map (fun p => (p.1, enumToOpenApi p.2))) }) ∧
    (∀ (f : TBF SV) (item : SV),
      (f.kindSym = some "Union" && unionAllConst f.anyOf) = false →
      f.type = some "array" → f.items = some item → item.truthy = true →
      enumToOpenApi (.tb f) =
        .tb { f with items := some (enumToOpenApi item) }) ∧
    (∀ (f : TBF SV) (l : List SV) (x : SV),
      f.kindSym = some "Union" → f.anyOf = some l →
      x ∈ l → hasConst x = false → f.type = none →
      enumToOpenApi (.tb f) = .tb f) := by
  refine ⟨?fold, ?obj, ?arr, ?unfolded⟩
  case fold =>
    intro f l hk ha hne hall
    have hcond : (f.kindSym = some "Union" && unionAllConst f.anyOf) = true := by
      have h1 : l.all hasConst = true := List.all_eq_true.mpr hall
      simp [hk, unionAllConst, ha, hne, h1]
    rw [enumToOpenApi]
    simp only [hcond]
    simp [ha]
  case obj =>
    intro f props hcond hty hp
    rw [enumToOpenApi]
    simp [hcond, hty, hp, enumProps_eq_map]
  case arr =>
    intro f item hcond hty hi htr
    have hob : (f.type = some "object" && f.properties.isSome) = false := by
      simp [hty]
    rw [enumToOpenApi]
    simp [hcond, hob, hty, hi, optTruthy, htr]
  case unfolded =>
    intro f l x hk ha hx hnc hty
    have h1 : l.all hasConst = false := by
      rw [List.all_eq_false]
      exact ⟨x, hx, by simp [hnc]⟩
    have hcond : (f.kindSym = some "Union" && unionAllConst f.anyOf) = false := by
      simp [unionAllConst, ha, h1]
    rw [enumToOpenApi]
    simp only [hcond]
    simp [hty]

/-- Witness for C8 at the spec's own example: the union of the constants
`"male"` and `"female"` folds to a string-typed enum schema. -/
theorem claim_C8_enum_folding_witness :
    enumToOpenApi
      (.tb { kindSym := some "Union",
             anyOf := some [.tb { constV := some (.str "male") },
                            .tb { constV := some (.str "female") }] }) =
      .tb { type := some "string",
            enumV := some [.str "male", .str "female"] } := by
  have h := claim_C8_enum_folding.1
    { kindSym := some "Union",
      anyOf := some [.tb { constV := some (.str "male") },
                     .tb { constV := some (.str "female") }] }
    [.tb { constV := some (.str "male") }, .tb { constV := some (.str "female") }]
    rfl rfl (by simp) (by decide)
  rw [h]
  rfl

-- ===========================================================================
-- Canonical Schema Normalizer: `unwrapSchema` (src/openapi.ts)
-- ===========================================================================

/-- `t.Ref(target)`: a TypeBox reference node. -/
def tRef (target : String) : SV :=
  .tb { kindSym := some "Ref", refV := some target }

/-- `t.Intersect(list)`: a TypeBox intersection node. -/
def tIntersect (l : List SV) : SV :=
  .tb { kindSym := some "Intersect", allOf := some l }

/-- JS falsiness of a schema slot (`!slot`): absent, or a falsy value. -/
def slotFalsy : Option SV → Bool
  | none => true
  | some v => !v.truthy

/-- `isTSchema` (src/openapi.ts): `Kind in value` detects a TypeBox schema;
every other object (including a numeric-keyed status map) yields `false`
through the fall-through branches. -/
def isTSchema : SV → Bool
  | .tb f => f.kindSym.isSome
  | _ => false

/-- The `mapJsonSchema` configuration: a per-vendor user-supplied conversion
function (which may throw, and may return `undefined`). -/
def MapJsonSchema : Type := String → Option (SV → Except String (Option SV))

/-- The `io` parameter of `unwrapSchema`. -/
inductive IoDir where
  | input
  | output
deriving DecidableEq, Repr

/-- `schema['~standard']?.jsonSchema?.[io]`, if present. -/
def VendorF.jsonSchemaFor (v : VendorF SV) (io : IoDir) :
    Option (Except String (Option SV)) :=
  match io with
  | .input => v.jsonSchemaIn
  | .output => v.jsonSchemaOut

/-- The `try { ... }` region of `unwrapSchema` for a vendor schema: probe the
schema-supplied `jsonSchema[io]` method, then the user-configured converter,
then (after the diagnostics `switch`, which does not affect the value) the
`toJsonSchema`/`toJSONSchema` method probes. Any of these may throw; the
error propagates to the enclosing `catch`. -/
def unwrapTry (v : VendorF SV) (map : MapJsonSchema) (io : IoDir) :
    Except String (Option SV) :=
  match v.jsonSchemaFor io with
  | some r => r
  | none =>
    match map v.vendorName with
    | some conv => do
        let r ← conv (.vendor v)
        pure (enumToOpenApiO r)
    | none =>
      -- the vendor `switch` here only prints one-time diagnostics and updates
      -- the module-level `warned` record; it does not affect the result
      if v.vendorName = "arktype" then
        match v.methodLower with
        | some r => do
            let x ← r
            pure (enumToOpenApiO x)
        | none => pure none
      else do
        let r1 ← (match v.methodUpper with
          | some r => r
          | none => pure none)
        let r2 ← (match r1 with
          | some x => pure (some x)
          | none =>
            match v.methodLower with
            | some r => r
            | none => pure none)
        pure (enumToOpenApiO r2)

/-- `unwrapSchema` (src/openapi.ts) with its exception behaviour made
explicit: the returned `Except` is the function's outcome at its boundary
(`.error` would mean an exception escapes to the caller). The body catches
the `try` region's errors and falls off the end, returning `undefined`. -/
def unwrapSchemaE (schema : Option SV) (map : MapJsonSchema) (io : IoDir) :
    Except String (Option SV) :=
  -- `if (!schema) return`
  if slotFalsy schema then .ok none else
  match schema with
  | none => .ok none
  | some s0 =>
    -- `if (typeof schema === 'string') schema = toRef(schema)`
    let s := match s0 with
      | .str name => tRef ("#/components/schemas/" ++ name)
      | v => v
    -- `if (Kind in schema) return enumToOpenApi(schema)`
    if s.kindIn then .ok (some (enumToOpenApi s)) else
    match s with
    | .vendor v =>
      -- `try { ... } catch (error) { console.warn(error) }` — a thrown
      -- error is logged and the function returns `undefined`
      match unwrapTry v map io with
      | .ok r => .ok r
      | .error _ => .ok none
    -- `if (Kind in schema || !schema?.['~standard']) return`
    | _ => .ok none

/-- The value `unwrapSchema` returns (its boundary never throws, see the C2
theorem; the `.error` projection below is therefore dead code). -/
def unwrapSchemaR (schema : Option SV) (map : MapJsonSchema) (io : IoDir) :
    Option SV :=
  match unwrapSchemaE schema map io with
  | .ok r => r
  | .error _ => none

/-- The module-level `warned` record (one-time per-vendor diagnostics). -/
structure Warned where
  zod4 : Bool := false
  zod3 : Bool := false
  valibotW : Bool := false
  effectW : Bool := false

/-- The update of the module-level `warned` record performed by one
`unwrapSchema` call: the diagnostics `switch` runs only when the input is a
truthy vendor schema with no `jsonSchema[io]` method and no user-configured
converter (if the method or converter exists, the function returns — or
throws into the `catch` — before the `switch`). -/
def unwrapWarnStep (schema : Option SV) (map : MapJsonSchema) (io : IoDir)
    (w : Warned) : Warned :=
  if slotFalsy schema then w else
  match schema with
  | some (.vendor v) =>
    if (v.jsonSchemaFor io).isSome then w
    else if (map v.vendorName).isSome then w
    else
      match v.vendorName with
      | "zod" =>
        if w.zod4 || w.zod3 then w
        else if v.hasZodField then { w with zod4 := true }
        else { w with zod3 := true }
      | "valibot" => if w.valibotW then w else { w with valibotW := true }
      | "effect" => if w.effectW then w else { w with effectW := true }
      | _ => w
  | _ => w

-- ===========================================================================
-- Validator Merge Engine (src/openapi.ts)
-- ===========================================================================

/-- `normalizeSchemaReference` (src/openapi.ts): convert a string alias into
a `t.Ref` node; return `undefined` for a falsy input. -/
def normalizeSchemaReference (s : Option SV) : Option SV :=
  match s with
  | none => none
  | some v =>
    if !v.truthy then none
    else
      match v with
      | .str name => some (tRef name)
      | v => some v

/-- Object spread of two schema objects, `{...a, ...b}`: a key of `b`
overrides the same key of `a`. -/
def spreadTBF (a b : TBF SV) : TBF SV :=
  { kindSym := b.kindSym <|> a.kindSym,
    type := b.type <|> a.type,
    properties := b.properties <|> a.properties,
    required := b.required <|> a.required,
    additionalProperties := b.additionalProperties <|> a.additionalProperties,
    items := b.items <|> a.items,
    anyOf := b.anyOf <|> a.anyOf,
    allOf := b.allOf <|> a.allOf,
    constV := b.constV <|> a.constV,
    enumV := b.enumV <|> a.enumV,
    description := b.description <|> a.description,
    refV := b.refV <|> a.refV }

/-- The mutable state of the `mergeObjectSchemas` loop. -/
structure MergeState where
  newSchema : Option (TBF SV) := none
  notObjects : List SV := []
  apTrue : Bool := false
  apFalse : Bool := false

/-- One iteration of the `for (const schema of schemas)` loop of
`mergeObjectSchemas`. -/
def mergeObjectStep (st : MergeState) (s : SV) : MergeState :=
  -- `if (!schema) continue`
  if !s.truthy then st else
  -- `if (schema.type !== 'object') { notObjects.push(schema); continue }`
  if s.typeF ≠ some "object" then
    { st with notObjects := st.notObjects ++ [s] }
  else
    let f := s.fieldsD
    let st :=
      match f.additionalProperties with
      | some true => { st with apTrue := true }
      | some false => { st with apFalse := true }
      | none => st
    match st.newSchema with
    | none => { st with newSchema := some f }
    | some ns =>
      { st with
        newSchema := some
          { spreadTBF ns f with
            properties := some (spreadProps (ns.properties.getD [])
              (f.properties.getD [])),
            required := some (ns.required.getD [] ++ f.required.getD []) } }

/-- `mergeObjectSchemas` (src/openapi.ts): merge the object schemas of a list
field-wise, collecting non-object schemas separately; deduplicate the merged
`required` list and let a `false` `additionalProperties` dominate a `true`
one. -/
def mergeObjectSchemas (schemas : List SV) : Option SV × List SV :=
  match schemas with
  | [] => (none, [])
  | [s] => if s.typeF = some "object" then (some s, []) else (none, [s])
  | _ =>
    let st := schemas.foldl mergeObjectStep {}
    match st.newSchema with
    | none => (none, st.notObjects)
    | some ns =>
      -- `if (newSchema.required) newSchema.required = [...new Set(...)]`
      let ns :=
        match ns.required with
        | some r => { ns with required := some (dedupFirst r) }
        | none => ns
      -- `false` dominates `true` for `additionalProperties`
      let ns :=
        if st.apFalse then { ns with additionalProperties := some false }
        else if st.apTrue then { ns with additionalProperties := some true }
        else ns
      (some (.tb ns), st.notObjects)

/-- `mergeSchemaProperty` (src/openapi.ts): merge two slot schemas, unwrapping
a vendor-schema `incoming`, merging object schemas field-wise, and falling
back to an intersection node when a non-object schema remains. -/
def mergeSchemaProperty (existing incoming : Option SV)
    (vendors : MapJsonSchema) : Option SV :=
  -- `if (!existing) return incoming` / `if (!incoming) return existing`
  if slotFalsy existing then incoming
  else if slotFalsy incoming then existing
  else
    let existingSchema := normalizeSchemaReference existing
    let incomingSchema0 := normalizeSchemaReference incoming
    -- `if (!existingSchema) return incoming` (etc.)
    if existingSchema.isNone then incoming
    else if incomingSchema0.isNone then existing
    else
      -- `if (!isTSchema(incomingSchema) && incomingSchema['~standard'])`
      let incomingSchema :=
        match incomingSchema0 with
        | some v =>
          if !isTSchema v && v.hasStandard then
            unwrapSchemaR (some v) vendors .input
          else some v
        | none => none
      -- `if (!incomingSchema) return existing`
      if slotFalsy incomingSchema then existing
      else
        match existingSchema, incomingSchema with
        | some es, some is' =>
          let m := mergeObjectSchemas [es, is']
          -- `if (notObjects.length > 0)`
          if m.2.isEmpty then m.1
          else
            match m.1 with
            | some merged => some (tIntersect (merged :: m.2))
            | none =>
              if m.2.length = 1 then some (m.2.headD (.other false))
              else some (tIntersect m.2)
        | _, _ => existing

-- ===========================================================================
-- Lemmas about deduplication and property-map spread
-- ===========================================================================

theorem mem_dedupFirstAux (l : List String) (seen : List String) (x : String) :
    x ∈ dedupFirstAux seen l ↔ x ∈ l ∧ x ∉ seen := by
  induction l generalizing seen with
  | nil => simp [dedupFirstAux]
  | cons y ys ih =>
    by_cases hy : y ∈ seen
    · rw [dedupFirstAux, if_pos hy, ih]
      constructor
      · rintro ⟨hx, hnx⟩
        exact ⟨List.mem_cons_of_mem _ hx, hnx⟩
      · rintro ⟨hx, hnx⟩
        rcases List.mem_cons.mp hx with rfl | hx2
        · exact absurd hy hnx
        · exact ⟨hx2, hnx⟩
    · rw [dedupFirstAux, if_neg hy, List.mem_cons, ih]
      constructor
      · rintro (rfl | ⟨hx, hnx⟩)
        · exact ⟨List.mem_cons_self _ _, hy⟩
        · exact ⟨List.mem_cons_of_mem _ hx,
            fun hs => hnx (List.mem_cons_of_mem _ hs)⟩
      · rintro ⟨hx, hnx⟩
        rcases List.mem_cons.mp hx with rfl | hx2
        · exact Or.inl rfl
        · by_cases hxy : x = y
          · exact Or.inl hxy
          · refine Or.inr ⟨hx2, fun hmem => ?_⟩
            rcases List.mem_cons.mp hmem with h1 | h2
            · exact hxy h1
            · exact hnx h2

theorem nodup_dedupFirstAux (l : List String) (seen : List String) :
    (dedupFirstAux seen l).Nodup := by
  induction l generalizing seen with
  | nil => simp [dedupFirstAux]
  | cons y ys ih =>
    by_cases hy : y ∈ seen
    · rw [dedupFirstAux, if_pos hy]
      exact ih seen
    · rw [dedupFirstAux, if_neg hy, List.nodup_cons]
      refine ⟨?_, ih _⟩
      intro hmem
      rw [mem_dedupFirstAux] at hmem
      exact hmem.2 (List.mem_cons_self _ _)

theorem mem_dedupFirst (l : List String) (x : String) :
    x ∈ dedupFirst l ↔ x ∈ l := by
  simp [dedupFirst, mem_dedupFirstAux]

theorem nodup_dedupFirst (l : List String) : (dedupFirst l).Nodup :=
  nodup_dedupFirstAux l []

theorem lookupKey_append {α : Type} (l1 l2 : List (String × α)) (k : String) :
    lookupKey (l1 ++ l2) k = (lookupKey l1 k).or (lookupKey l2 k) := by
  unfold lookupKey
  rw [List.find?_append]
  rcases h1 : l1.find? (fun p => p.1 = k) with _ | p <;> simp [h1]

theorem lookupKey_map_val (a : List (String × SV)) (h : String × SV → SV)
    (k : String) :
    lookupKey (a.map (fun p => (p.1, h p))) k =
      (a.find? (fun p => p.1 = k)).map h := by
  induction a with
  | nil => rfl
  | cons p a2 ih =>
    by_cases hp : p.1 = k
    · simp [lookupKey, List.find?_cons, hp]
    · simpa [lookupKey, List.find?_cons, hp] using ih

theorem find?_filter_keyed {α : Type} (b : List (String × α))
    (h : String × α → Bool) (k : String)
    (hk : ∀ q : String × α, q.1 = k → h q = true) :
    lookupKey (b.filter h) k = lookupKey b k := by
  induction b with
  | nil => rfl
  | cons q b2 ih =>
    by_cases hq : q.1 = k
    · have := hk q hq
      simp [List.filter_cons, this, lookupKey, List.find?_cons, hq]
    · rcases hh : h q with _ | _
      · simpa [List.filter_cons, hh, lookupKey, List.find?_cons, hq] using ih
      · simpa [List.filter_cons, hh, lookupKey, List.find?_cons, hq] using ih

/-- The semantic content of the spread `{...a, ...b}` on property maps: the
key `k` resolves to `b`'s value when `b` has the key, else to `a`'s. -/
theorem lookupKey_spreadProps (a b : List (String × SV)) (k : String) :
    lookupKey (spreadProps a b) k = (lookupKey b k).or (lookupKey a k) := by
  have hsplit : lookupKey (spreadProps a b) k =
      (lookupKey (a.map (fun p => (p.1, (lookupKey b p.1).getD p.2))) k).or
        (lookupKey (b.filter (fun p => (lookupKey a p.1).isNone)) k) :=
    lookupKey_append _ _ _
  rw [hsplit, lookupKey_map_val]
  rcases ha : a.find? (fun p => p.1 = k) with _ | p
  · have hanone : lookupKey a k = none := by simp [lookupKey, ha]
    rw [find?_filter_keyed b _ k (fun q hq => by simp [hq, hanone])]
    simp [ha, hanone]
  · have hp : p.1 = k := by simpa using List.find?_some ha
    have haval : lookupKey a k = some p.2 := by simp [lookupKey, ha]
    rcases hb : lookupKey b k with _ | w <;> simp [ha, haval, hb, hp]

-- ===========================================================================
-- C1: merging object slots
-- ===========================================================================

/-- The `additionalProperties` value after `mergeObjectSchemas` of two object
schemas: `false` dominates `true`, which dominates the spread result. -/
def apDominateFalse (a b : Option Bool) : Option Bool :=
  if a = some false ∨ b = some false then some false
  else if a = some true ∨ b = some true then some true
  else b <|> a

/-- Evaluation of `mergeObjectSchemas` on a two-element list of object
schemas. -/
theorem mergeObjectSchemas_two_objects (f g : TBF SV)
    (hf : f.type = some "object") (hg : g.type = some "object") :
    mergeObjectSchemas [.tb f, .tb g] =
      (some (.tb { spreadTBF f g with
          properties := some (spreadProps (f.properties.getD [])
            (g.properties.getD [])),
          required := some (dedupFirst (f.required.getD [] ++
            g.required.getD [])),
          additionalProperties := apDominateFalse f.additionalProperties
            g.additionalProperties }), []) := by
  rcases hfa : f.additionalProperties with _ | bf <;> (try cases bf) <;>
    rcases hga : g.additionalProperties with _ | bg <;> (try cases bg) <;>
    simp [mergeObjectSchemas, mergeObjectStep, SV.truthy, SV.typeF,
      SV.fieldsD, hf, hg, hfa, hga, apDominateFalse, spreadTBF]

/-- Evaluation of `mergeObjectSchemas` on an object schema followed by a
non-object schema. -/
theorem mergeObjectSchemas_obj_first (f g : TBF SV)
    (hf : f.type = some "object") (hg : g.type ≠ some "object") :
    mergeObjectSchemas [.tb f, .tb g] =
      (some (.tb { f with required := f.required.map dedupFirst }), [.tb g]) := by
  rcases hfa : f.additionalProperties with _ | bf <;> (try cases bf) <;>
    rcases hr : f.required with _ | r <;>
    simp [mergeObjectSchemas, mergeObjectStep, SV.truthy, SV.typeF,
      SV.fieldsD, hf, hg, hfa, hr] <;>
    (cases f with | mk => simp_all)

/-- Evaluation of `mergeObjectSchemas` on a non-object schema followed by an
object schema. -/
theorem mergeObjectSchemas_obj_second (f g : TBF SV)
    (hf : f.type = some "object") (hg : g.type ≠ some "object") :
    mergeObjectSchemas [.tb g, .tb f] =
      (some (.tb { f with required := f.required.map dedupFirst }), [.tb g]) := by
  rcases hfa : f.additionalProperties with _ | bf <;> (try cases bf) <;>
    rcases hr : f.required with _ | r <;>
    simp [mergeObjectSchemas, mergeObjectStep, SV.truthy, SV.typeF,
      SV.fieldsD, hf, hg, hfa, hr] <;>
    (cases f with | mk => simp_all)

/-- C1: merging two object slot schemas with `mergeSchemaProperty` (via
`mergeObjectSchemas`) yields an object schema whose `required` list is the
deduplicated union of the two `required` lists (in order, duplicates
removed) and whose property map is the union with the incoming side winning
on key collision; merging an object schema with a non-object schema (in
either order) yields an intersection node containing both — the object side
with its `required` list deduplicated, and the non-object side unchanged. -/
theorem claim_C1_merge_object_slots :
    (∀ (vendors : MapJsonSchema) (f g : TBF SV),
      f.type = some "object" → g.type = some "object" →
      ∃ h : TBF SV,
        mergeSchemaProperty (some (.tb f)) (some (.tb g)) vendors =
          some (.tb h) ∧
        h.type = some "object" ∧
        h.required = some (dedupFirst (f.required.getD [] ++
          g.required.getD [])) ∧
        (∀ x : String, x ∈ h.required.getD [] ↔
          (x ∈ f.required.getD [] ∨ x ∈ g.required.getD [])) ∧
        (h.required.getD []).Nodup ∧
        (∀ k : String, lookupKey (h.properties.getD []) k =
          (lookupKey (g.properties.getD []) k).or
            (lookupKey (f.properties.getD []) k))) ∧
    (∀ (vendors : MapJsonSchema) (f g : TBF SV),
      f.type = some "object" → g.type ≠ some "object" →
      mergeSchemaProperty (some (.tb f)) (some (.tb g)) vendors =
        some (tIntersect
          [.tb { f with required := f.required.map dedupFirst }, .tb g]) ∧
      mergeSchemaProperty (some (.tb g)) (some (.tb f)) vendors =
        some (tIntersect
          [.tb { f with required := f.required.map dedupFirst }, .tb g])) := by
  constructor
  · intro vendors f g hf hg
    have hm := mergeObjectSchemas_two_objects f g hf hg
    refine ⟨{ spreadTBF f g with
        properties := some (spreadProps (f.properties.getD [])
          (g.properties.getD [])),
        required := some (dedupFirst (f.required.getD [] ++
          g.required.getD [])),
        additionalProperties := apDominateFalse f.additionalProperties
          g.additionalProperties }, ?_, ?_, rfl, ?_, ?_, ?_⟩
    · simp [mergeSchemaProperty, slotFalsy, SV.truthy,
        normalizeSchemaReference, SV.hasStandard, hm]
    · simp [spreadTBF, hg]
    · intro x
      simp [mem_dedupFirst, List.mem_append]
    · exact nodup_dedupFirst _
    · intro k
      simpa using lookupKey_spreadProps (f.properties.getD [])
        (g.properties.getD []) k
  · intro vendors f g hf hg
    have hm1 := mergeObjectSchemas_obj_first f g hf hg
    have hm2 := mergeObjectSchemas_obj_second f g hf hg
    constructor
    · simp [mergeSchemaProperty, slotFalsy, SV.truthy,
        normalizeSchemaReference, SV.hasStandard, hm1]
    · simp [mergeSchemaProperty, slotFalsy, SV.truthy,
        normalizeSchemaReference, SV.hasStandard, hm2]

/-- Witness for C1 at concrete object schemas with overlapping `required`
lists and a colliding property key. -/
theorem claim_C1_merge_object_slots_witness :
    ∃ h : TBF SV,
      mergeSchemaProperty
        (some (.tb { type := some "object",
                     properties := some [("a", .tb { type := some "string" })],
                     required := some ["a", "b"] }))
        (some (.tb { type := some "object",
                     properties := some [("a", .tb { type := some "number" })],
                     required := some ["b", "c"] }))
        (fun _ => none) = some (.tb h) ∧
      h.required = some ["a", "b", "c"] ∧
      lookupKey (h.properties.getD []) "a" =
        some (.tb { type := some "number" }) := by
  obtain ⟨h, h1, _, h3, _, _, h6⟩ :=
    claim_C1_merge_object_slots.1 (fun _ => none)
      { type := some "object",
        properties := some [("a", .tb { type := some "string" })],
        required := some ["a", "b"] }
      { type := some "object",
        properties := some [("a", .tb { type := some "number" })],
        required := some ["b", "c"] }
      rfl rfl
  refine ⟨h, h1, ?_, ?_⟩
  · rw [h3]
    rfl
  · rw [h6 "a"]
    rfl

-- ===========================================================================
-- C2: unwrapSchema never throws past its boundary
-- ===========================================================================

theorem unwrapE_ok (schema : Option SV) (map : MapJsonSchema) (io : IoDir) :
    ∃ r : Option SV, unwrapSchemaE schema map io = .ok r := by
  rcases schema with _ | s0
  · exact ⟨none, by simp [unwrapSchemaE, slotFalsy]⟩
  by_cases ht : s0.truthy
  case neg => exact ⟨none, by simp [unwrapSchemaE, slotFalsy, ht]⟩
  case pos =>
    rcases s0 with sref | f | v | b
    · exact ⟨some (enumToOpenApi (tRef ("#/components/schemas/" ++ sref))), by
        simp [unwrapSchemaE, slotFalsy, ht, tRef, SV.kindIn]⟩
    · rcases hk : f.kindSym with _ | kv
      · exact ⟨none, by
          simp [unwrapSchemaE, slotFalsy, ht, SV.kindIn, SV.hasStandard, hk]⟩
      · exact ⟨some (enumToOpenApi (.tb f)), by
          simp [unwrapSchemaE, slotFalsy, ht, SV.kindIn, hk]⟩
    · rcases hu : unwrapTry v map io with e | r
      · exact ⟨none, by
          simp [unwrapSchemaE, slotFalsy, ht, SV.kindIn, hu]⟩
      · exact ⟨r, by
          simp [unwrapSchemaE, slotFalsy, ht, SV.kindIn, hu]⟩
    · exact ⟨none, by
        simp [unwrapSchemaE, slotFalsy, ht, SV.kindIn, SV.hasStandard]⟩

theorem unwrapSchemaE_eq_ok (schema : Option SV) (map : MapJsonSchema)
    (io : IoDir) :
    unwrapSchemaE schema map io = .ok (unwrapSchemaR schema map io) := by
  obtain ⟨r, hr⟩ := unwrapE_ok schema map io
  rw [unwrapSchemaR, hr]

/-- C2: `unwrapSchema` never throws past its boundary — for every input
(including a vendor schema whose user-supplied converter or vendor-native
conversion method throws when called), it returns normally with a schema
object or `undefined`; the thrown error is absorbed by the `catch`. -/
theorem claim_C2_unwrap_never_throws (schema : Option SV)
    (map : MapJsonSchema) (io : IoDir) :
    ∃ r : Option SV, unwrapSchemaE schema map io = .ok r :=
  unwrapE_ok schema map io

-- ===========================================================================
-- Path Template Expander: `getPossiblePath` (src/openapi.ts)
-- ===========================================================================

/-- JS regex `\\w`: a word character. -/
def isWordChar (c : Char) : Bool := c.isAlphanum || c = '_'

/-- Match the regex `\\/:\\w+\\?` at the head of the character list; on
success return the matched characters and the remainder after the match.
(The regex backtracking on `\\w+` cannot succeed with a shorter run, because
the following `?` is not a word character, so maximal munch is exact.) -/
def tryOptMatch : List Char → Option (List Char × List Char)
  | '/' :: ':' :: rest =>
    let w := rest.takeWhile isWordChar
    match rest.dropWhile isWordChar with
    | '?' :: r2 =>
      if w.isEmpty then none else some ('/' :: ':' :: (w ++ ['?']), r2)
    | _ => none
  | _ => none

theorem tryOptMatch_eq {l m r : List Char} (h : tryOptMatch l = some (m, r)) :
    l = m ++ r ∧ m ≠ [] := by
  unfold tryOptMatch at h
  split at h
  case h_2 => simp at h
  case h_1 rest =>
    dsimp only [] at h
    split at h
    case h_2 => simp at h
    case h_1 r2 heq =>
      split at h
      case isTrue => simp at h
      case isFalse hw =>
        rw [Option.some_inj] at h
        have hm : m = '/' :: ':' :: (rest.takeWhile isWordChar ++ ['?']) := by
          have := congrArg Prod.fst h
          simpa using this.symm
        have hr : r = r2 := by
          have := congrArg Prod.snd h
          simpa using this.symm
        subst hm hr
        refine ⟨?_, by simp⟩
        have hsplit : List.takeWhile isWordChar rest ++
            List.dropWhile isWordChar rest = rest := by
          simp
        rw [heq] at hsplit
        conv_lhs => rw [← hsplit]
        simp

/-- `path.match(/(\\/:\\w+\\?)/g)`: the list of all matches, scanning left to
right; scanning resumes after each match (no match can begin inside another,
since `/` occurs only at a match's first position). -/
def findOptMatches (l : List Char) : List (List Char) :=
  match l with
  | [] => []
  | c :: rest =>
    match h : tryOptMatch (c :: rest) with
    | some (m, r) => m :: findOptMatches r
    | none => findOptMatches rest
termination_by l.length
decreasing_by
  · obtain ⟨heq, hne⟩ := tryOptMatch_eq h
    rw [heq]
    have : 0 < m.length := List.length_pos.mpr hne
    simp [List.length_append]
    omega
  · simp

theorem findOptMatches_infix_fuel :
    ∀ (n : Nat) (l : List Char), l.length ≤ n → ∀ m ∈ findOptMatches l,
      (∃ s t, l = s ++ m ++ t) ∧ m ≠ [] := by
  intro n
  induction n with
  | zero =>
    intro l hl m hm
    have : l = [] := List.eq_nil_of_length_eq_zero (Nat.le_zero.mp hl)
    subst this
    rw [findOptMatches] at hm
    simp at hm
  | succ n ih =>
    intro l hl m hm
    match l with
    | [] =>
      rw [findOptMatches] at hm
      simp at hm
    | c :: rest =>
      rw [findOptMatches] at hm
      split at hm
      case h_1 m0 r heq =>
        obtain ⟨hdec, hne0⟩ := tryOptMatch_eq heq
        rcases List.mem_cons.mp hm with rfl | hm2
        · exact ⟨⟨[], r, by simpa using hdec⟩, hne0⟩
        · have hr : r.length ≤ n := by
            have h1 : (c :: rest).length = m0.length + r.length := by
              rw [hdec]; simp
            have h2 : 0 < m0.length := List.length_pos.mpr hne0
            omega
          obtain ⟨⟨s, t, hst⟩, hne⟩ := ih r hr m hm2
          exact ⟨⟨m0 ++ s, t, by rw [hdec, hst]; simp⟩, hne⟩
      case h_2 =>
        have hr : rest.length ≤ n := by
          simp at hl
          omega
        obtain ⟨⟨s, t, hst⟩, hne⟩ := ih rest hr m hm
        exact ⟨⟨c :: s, t, by rw [hst]; simp⟩, hne⟩

theorem mem_findOptMatches {l m : List Char} (hm : m ∈ findOptMatches l) :
    (∃ s t, l = s ++ m ++ t) ∧ m ≠ [] :=
  findOptMatches_infix_fuel l.length l le_rfl m hm

/-- `haystack` starts with `needle` (plain string comparison). -/
def startsWithL : List Char → List Char → Bool
  | _, [] => true
  | [], _ :: _ => false
  | a :: as, b :: bs => a = b && startsWithL as bs

theorem startsWithL_iff (l pat : List Char) :
    startsWithL l pat = true ↔ ∃ t, l = pat ++ t := by
  induction pat generalizing l with
  | nil => simp [startsWithL]
  | cons b bs ih =>
    match l with
    | [] => simp [startsWithL]
    | a :: as =>
      rw [startsWithL]
      simp only [Bool.and_eq_true, decide_eq_true_eq, ih, List.cons_append]
      constructor
      · rintro ⟨rfl, t, rfl⟩
        exact ⟨t, rfl⟩
      · rintro ⟨t, h⟩
        injection h with h1 h2
        exact ⟨h1, t, h2⟩

/-- `path.replace(m, '')` for a plain (non-regex) pattern `m`: remove the
first occurrence of `m`; no-op when `m` does not occur. -/
def removeFirstOccur (pat : List Char) : List Char → List Char
  | [] => []
  | c :: rest =>
    if startsWithL (c :: rest) pat then (c :: rest).drop pat.length
    else c :: removeFirstOccur pat rest

theorem removeFirstOccur_length_lt (pat l : List Char) (hne : pat ≠ [])
    (hocc : ∃ s t, l = s ++ pat ++ t) :
    (removeFirstOccur pat l).length < l.length := by
  induction l with
  | nil =>
    obtain ⟨s, t, h⟩ := hocc
    have := congrArg List.length h
    simp at this
    exact absurd (List.eq_nil_of_length_eq_zero (by omega)) hne
  | cons c rest ih =>
    rw [removeFirstOccur]
    by_cases hs : startsWithL (c :: rest) pat = true
    · rw [if_pos hs]
      obtain ⟨t, ht⟩ := (startsWithL_iff _ _).mp hs
      have hlen : pat.length ≤ (c :: rest).length := by
        rw [ht]
        simp
      have hpos : 0 < pat.length := List.length_pos.mpr hne
      simp only [List.length_drop]
      simp at hlen ⊢
      omega
    · rw [if_neg hs]
      obtain ⟨s, t, hst⟩ := hocc
      rcases s with _ | ⟨c2, s2⟩
      · exact absurd ((startsWithL_iff _ _).mpr ⟨t, by simpa using hst⟩) hs
      · have hrest : rest = s2 ++ pat ++ t := by
          have := congrArg List.tail hst
          simpa using this
        have := ih ⟨s2, t, hrest⟩
        simp only [List.length_cons]
        omega

/-- `getPossiblePath` (src/openapi.ts): expand the optional parameters of a
path pattern. The first entry drops every `?`; then, for each optional
parameter match, the path with that one match removed is expanded
recursively and the results appended in order. -/
def getPossiblePath (path : List Char) : List (List Char) :=
  match hms : findOptMatches path with
  | [] => [path]
  | m0 :: ms =>
    (path.filter (fun c => c ≠ '?')) ::
      ((m0 :: ms).attach.flatMap
        (fun mm => getPossiblePath (removeFirstOccur mm.1 path)))
termination_by path.length
decreasing_by
  have hmem : mm.1 ∈ findOptMatches path := by
    rw [hms]
    exact mm.2
  obtain ⟨hocc, hne⟩ := mem_findOptMatches hmem
  exact removeFirstOccur_length_lt mm.1 path hne hocc

/-- The fully-stripped pattern: repeatedly remove the first optional-segment
match until none remains (this is the claim's "all optional segments
removed" pattern, defined from the same matcher the source uses). -/
def stripAllOpt (path : List Char) : List Char :=
  match hms : findOptMatches path with
  | [] => path
  | m :: _ => stripAllOpt (removeFirstOccur m path)
termination_by path.length
decreasing_by
  have hmem : m ∈ findOptMatches path := by
    rw [hms]
    exact List.mem_cons_self _ _
  obtain ⟨hocc, hne⟩ := mem_findOptMatches hmem
  exact removeFirstOccur_length_lt m path hne hocc

/-- Fuel-based computable twin of `findOptMatches` (the scan consumes at
least one character per step, so `l.length` fuel suffices; proven equal
below). Used to evaluate concrete inputs by kernel reduction. -/
def findOptMatchesF : Nat → List Char → List (List Char)
  | 0, _ => []
  | _ + 1, [] => []
  | fuel + 1, c :: rest =>
    match tryOptMatch (c :: rest) with
    | some (m, r) => m :: findOptMatchesF fuel r
    | none => findOptMatchesF fuel rest

theorem findOptMatchesF_eq :
    ∀ (n : Nat) (l : List Char), l.length ≤ n →
      findOptMatchesF n l = findOptMatches l := by
  intro n
  induction n with
  | zero =>
    intro l hl
    have : l = [] := List.eq_nil_of_length_eq_zero (Nat.le_zero.mp hl)
    subst this
    rw [findOptMatches]
    rfl
  | succ n ih =>
    intro l hl
    match l with
    | [] =>
      rw [findOptMatches]
      rfl
    | c :: rest =>
      rw [findOptMatches, findOptMatchesF]
      rcases htry : tryOptMatch (c :: rest) with _ | ⟨m, r⟩
      · exact ih rest (by simp at hl; omega)
      · obtain ⟨hdec, hne⟩ := tryOptMatch_eq htry
        have hr : r.length ≤ n := by
          have h1 : (c :: rest).length = m.length + r.length := by
            rw [hdec]
            simp
          have h2 : 0 < m.length := List.length_pos.mpr hne
          omega
        show m :: findOptMatchesF n r = m :: findOptMatches r
        rw [ih r hr]

/-- Fuel-based computable twin of `getPossiblePath` (proven equal below). -/
def getPossiblePathF : Nat → List Char → List (List Char)
  | 0, path => [path]
  | fuel + 1, path =>
    match findOptMatchesF path.length path with
    | [] => [path]
    | m0 :: ms =>
      path.filter (fun c => c ≠ '?') ::
        (m0 :: ms).flatMap
          (fun m => getPossiblePathF fuel (removeFirstOccur m path))

theorem getPossiblePath_eq_nil {path : List Char}
    (h : findOptMatches path = []) : getPossiblePath path = [path] := by
  rw [getPossiblePath]
  split
  case h_1 => rfl
  case h_2 m0 ms heq => rw [h] at heq; cases heq

theorem getPossiblePath_eq_cons {path m0 : List Char} {ms : List (List Char)}
    (h : findOptMatches path = m0 :: ms) :
    getPossiblePath path =
      path.filter (fun c => c ≠ '?') ::
        ((m0 :: ms).attach.flatMap
          (fun mm => getPossiblePath (removeFirstOccur mm.1 path))) := by
  rw [getPossiblePath]
  split
  case h_1 heq => rw [h] at heq; cases heq
  case h_2 m0' ms' heq =>
    rw [h] at heq
    injection heq with hm hms
    subst hm hms
    rfl

theorem stripAllOpt_eq_nil {path : List Char}
    (h : findOptMatches path = []) : stripAllOpt path = path := by
  rw [stripAllOpt]
  split
  case h_1 => rfl
  case h_2 m ms heq => rw [h] at heq; cases heq

theorem stripAllOpt_eq_cons {path m0 : List Char} {ms : List (List Char)}
    (h : findOptMatches path = m0 :: ms) :
    stripAllOpt path = stripAllOpt (removeFirstOccur m0 path) := by
  rw [stripAllOpt]
  split
  case h_1 heq => rw [h] at heq; cases heq
  case h_2 m0' ms' heq =>
    rw [h] at heq
    injection heq with hm hms
    subst hm
    rfl

theorem getPossiblePathF_eq :
    ∀ (n : Nat) (path : List Char), path.length < n →
      getPossiblePathF n path = getPossiblePath path := by
  intro n
  induction n with
  | zero => intro path h; omega
  | succ n ih =>
    intro path hl
    rw [getPossiblePathF]
    rw [findOptMatchesF_eq path.length path le_rfl]
    rcases h : findOptMatches path with _ | ⟨m0, ms⟩
    · rw [getPossiblePath_eq_nil h]
    · rw [getPossiblePath_eq_cons h]
      congr 1
      have hmap :
          (m0 :: ms).attach.flatMap
              (fun mm => getPossiblePath (removeFirstOccur mm.1 path)) =
            (m0 :: ms).flatMap
              (fun m => getPossiblePath (removeFirstOccur m path)) := by
        conv_rhs => rw [← List.attach_map_subtype_val (m0 :: ms)]
        rw [List.flatMap_map]
      rw [hmap]
      show (path.filter (fun c => c ≠ '?') ::
          (m0 :: ms).flatMap
            (fun m => getPossiblePathF n (removeFirstOccur m path))) =
        (path.filter (fun c => c ≠ '?') ::
          (m0 :: ms).flatMap
            (fun m => getPossiblePath (removeFirstOccur m path)))
      congr 1
      apply List.flatMap_congr
      intro m hm
      have hmem : m ∈ findOptMatches path := by
        rw [h]
        exact hm
      obtain ⟨hocc, hne⟩ := mem_findOptMatches hmem
      have := removeFirstOccur_length_lt m path hne hocc
      exact ih _ (by omega)

theorem stripAllOpt_mem_fuel :
    ∀ (n : Nat) (path : List Char), path.length ≤ n →
      stripAllOpt path ∈ getPossiblePath path := by
  intro n
  induction n with
  | zero =>
    intro path hl
    have : path = [] := List.eq_nil_of_length_eq_zero (Nat.le_zero.mp hl)
    subst this
    have h : findOptMatches [] = [] := by rw [findOptMatches]
    rw [stripAllOpt_eq_nil h, getPossiblePath_eq_nil h]
    simp
  | succ n ih =>
    intro path hl
    rcases h : findOptMatches path with _ | ⟨m0, ms⟩
    · rw [stripAllOpt_eq_nil h, getPossiblePath_eq_nil h]
      simp
    · rw [stripAllOpt_eq_cons h, getPossiblePath_eq_cons h]
      refine List.mem_cons_of_mem _ ?_
      rw [List.mem_flatMap]
      refine ⟨⟨m0, List.mem_cons_self _ _⟩, List.mem_attach _ _, ?_⟩
      have hmem : m0 ∈ findOptMatches path := by
        rw [h]
        exact List.mem_cons_self _ _
      obtain ⟨hocc, hne⟩ := mem_findOptMatches hmem
      have hlt := removeFirstOccur_length_lt m0 path hne hocc
      exact ih (removeFirstOccur m0 path) (by omega)

/-- C5 (amended): `getPossiblePath` always returns a nonempty list; with no
optional-segment match the result is exactly the unchanged input; otherwise
the first entry is the input with every `?` removed (the fully-qualified
pattern); and the fully-stripped pattern — all optional-segment matches
removed, one after the other — appears among the entries. (The claimed
`2^k` upper bound on the number of entries is refuted by the
counterexample.) -/
theorem claim_C5_amended (path : List Char) :
    1 ≤ (getPossiblePath path).length ∧
    (findOptMatches path = [] → getPossiblePath path = [path]) ∧
    (findOptMatches path ≠ [] →
      (getPossiblePath path).headD [] =
        path.filter (fun c => c ≠ '?')) ∧
    stripAllOpt path ∈ getPossiblePath path := by
  refine ⟨?_, ?_, ?_, stripAllOpt_mem_fuel path.length path le_rfl⟩
  · rcases h : findOptMatches path with _ | ⟨m0, ms⟩
    · rw [getPossiblePath_eq_nil h]
      simp
    · rw [getPossiblePath_eq_cons h]
      simp
  · intro h
    rw [getPossiblePath_eq_nil h]
  · intro h
    rcases hm : findOptMatches path with _ | ⟨m0, ms⟩
    · exact absurd hm h
    · rw [getPossiblePath_eq_cons hm]
      rfl

/-- Witness for C5 (amended) at the spec's own example path. -/
theorem claim_C5_amended_witness :
    getPossiblePath ("/user/:user?/name/:name?".toList) =
        [("/user/:user/name/:name".toList), ("/user/name/:name".toList),
         ("/user/name".toList), ("/user/:user/name".toList),
         ("/user/name".toList)] ∧
    (getPossiblePath ("/user/:user?/name/:name?".toList)).headD [] =
      ("/user/:user?/name/:name?".toList).filter (fun c => c ≠ '?') := by
  constructor
  · rw [← getPossiblePathF_eq (("/user/:user?/name/:name?".toList).length + 1)
      _ (Nat.lt_succ_self _)]
    decide
  · exact (claim_C5_amended ("/user/:user?/name/:name?".toList)).2.2.1
      (by
        rw [← findOptMatchesF_eq ("/user/:user?/name/:name?".toList).length
          _ le_rfl]
        decide)

/-- C5 counterexample: the path `/user/:user?/name/:name?` has `k = 2`
optional segments, yet `getPossiblePath` returns 5 entries, exceeding the
claimed `2^k = 4` upper bound. -/
theorem claim_C5_counterexample :
    (findOptMatches ("/user/:user?/name/:name?".toList)).length = 2 ∧
    (getPossiblePath ("/user/:user?/name/:name?".toList)).length = 5 ∧
    ¬((getPossiblePath ("/user/:user?/name/:name?".toList)).length ≤
        2 ^ (findOptMatches ("/user/:user?/name/:name?".toList)).length) := by
  have e1 : findOptMatches ("/user/:user?/name/:name?".toList) =
      findOptMatchesF ("/user/:user?/name/:name?".toList).length
        ("/user/:user?/name/:name?".toList) :=
    (findOptMatchesF_eq _ _ le_rfl).symm
  have e2 : getPossiblePath ("/user/:user?/name/:name?".toList) =
      getPossiblePathF (("/user/:user?/name/:name?".toList).length + 1)
        ("/user/:user?/name/:name?".toList) :=
    (getPossiblePathF_eq _ _ (Nat.lt_succ_self _)).symm
  refine ⟨?_, ?_, ?_⟩
  · rw [e1]
    decide
  · rw [e2]
    decide
  · rw [e1, e2]
    decide

-- ===========================================================================
-- Declaration Text Miner (src/gen/index.ts)
-- ===========================================================================
-- The scanning loops of the miner advance at least one character per
-- iteration, so a fuel of `length + 1` makes each fuel-based definition
-- total and exact on every input.

/-- JS `String.prototype.toLowerCase` (character-wise). -/
def toLowerS (s : String) : String := String.mk (s.data.map Char.toLower)

/-- JS `String.prototype.toUpperCase` on one character. -/
def toUpperS (s : String) : String := String.mk (s.data.map Char.toUpper)

/-- The `declaration.replace(numberKey, '"$1":')` preprocessing
(`numberKey = /(\\d+):/g`): quote every maximal digit run immediately
followed by a colon. -/
def quoteNumericKeys : Nat → List Char → List Char
  | 0, l => l
  | _ + 1, [] => []
  | fuel + 1, c :: rest =>
    if c.isDigit then
      let ds := (c :: rest).takeWhile Char.isDigit
      match (c :: rest).dropWhile Char.isDigit with
      | ':' :: r2 => '"' :: ds ++ '"' :: ':' :: quoteNumericKeys fuel r2
      | r2 => ds ++ quoteNumericKeys fuel r2
    else c :: quoteNumericKeys fuel rest

/-- `code.indexOf(target, i)`. -/
def indexOfFrom (code : List Char) (target : Char) (i : Nat) : Option Nat :=
  match (code.drop i).findIdx? (fun c => c = target) with
  | some j => some (i + j)
  | none => none

/-- The key-start delimiter class `/[\\s\x7b\x7d;,\\n]/` of
`extractRootObjects`. -/
def isKeyDelim (c : Char) : Bool :=
  c.isWhitespace || c = '{' || c = '}' || c = ';' || c = ','

/-- Walk backwards from index `i` while `p` holds, and return the stop
index plus one (0 when the walk falls off the front, modelling the `-1`
sentinel of the source's index arithmetic). -/
def walkBackPlus1 (p : Char → Bool) (code : List Char) : Nat → Nat
  | 0 => if p (code.getD 0 ' ') then 0 else 1
  | k + 1 => if p (code.getD (k + 1) ' ') then walkBackPlus1 p code k else k + 2

/-- The brace-depth scan of `extractRootObjects`: starting at index `idx`
(whose character opens the scan), return the index one past the brace that
closes depth 0, or the code length if none does. The scan is only entered
at a `\x7b` character, so the depth stays positive until the closing brace. -/
def braceGo : List Char → Nat → Nat → Nat
  | [], _, idx => idx
  | c :: rest, depth, idx =>
    if c = '{' then braceGo rest (depth + 1) (idx + 1)
    else if c = '}' then
      if depth = 1 then idx + 1
      else braceGo rest (depth - 1) (idx + 1)
    else braceGo rest depth (idx + 1)

/-- The `while (i < code.length)` loop of `extractRootObjects`: find the
next colon, walk back over whitespace and then over non-delimiter key
characters, find the brace after the colon, scan to its matching close and
emit the fragment `\x7b<slice>;\x7d`; resume after the matched brace. -/
def extractRootLoop (code : List Char) : Nat → Nat → List (List Char)
  | 0, _ => []
  | fuel + 1, i =>
    if i < code.length then
      match indexOfFrom code ':' i with
      | none => []
      | some colonIdx =>
        let keyStartPlus1 :=
          if colonIdx = 0 then 0
          else
            let keyEndPlus1 :=
              walkBackPlus1 Char.isWhitespace code (colonIdx - 1)
            if keyEndPlus1 = 0 then 0
            else walkBackPlus1 (fun c => !isKeyDelim c) code (keyEndPlus1 - 1)
        match indexOfFrom code '{' colonIdx with
        | none => []
        | some braceIdx =>
          let endIdx := braceGo (code.drop braceIdx) 0 braceIdx
          ('{' :: ((code.drop keyStartPlus1).take (endIdx - keyStartPlus1) ++
              [';', '}'])) ::
            extractRootLoop code fuel endIdx
    else []

/-- `extractRootObjects` (src/gen/index.ts). -/
def extractRootObjects (code : List Char) : List (List Char) :=
  extractRootLoop code (code.length + 1) 0

/-- `route.replaceAll(/readonly/g, '')`. -/
def stripReadonly : Nat → List Char → List Char
  | 0, l => l
  | _ + 1, [] => []
  | fuel + 1, c :: rest =>
    if startsWithL (c :: rest) ("readonly".toList) then
      stripReadonly fuel ((c :: rest).drop 8)
    else c :: stripReadonly fuel rest

/-- Tokens of the modelled declaration-text compiler. -/
inductive DTok where
  | lbrace
  | rbrace
  | colon
  | sep
  | ident (s : String)
  | strLit (s : String)

/-- A bare identifier character of the declaration text. -/
def isIdentChar (c : Char) : Bool :=
  !(c.isWhitespace || c = '{' || c = '}' || c = ':' || c = ';' ||
    c = ',' || c = '"')

/-- Tokenizer of the modelled declaration-text compiler. -/
def tokenizeDecl : Nat → List Char → List DTok
  | 0, _ => []
  | _ + 1, [] => []
  | fuel + 1, c :: rest =>
    if c.isWhitespace then tokenizeDecl fuel rest
    else if c = '{' then .lbrace :: tokenizeDecl fuel rest
    else if c = '}' then .rbrace :: tokenizeDecl fuel rest
    else if c = ':' then .colon :: tokenizeDecl fuel rest
    else if c = ';' || c = ',' then .sep :: tokenizeDecl fuel rest
    else if c = '"' then
      .strLit (String.mk (rest.takeWhile (fun c2 => c2 ≠ '"'))) ::
        tokenizeDecl fuel ((rest.dropWhile (fun c2 => c2 ≠ '"')).drop 1)
    else
      .ident (String.mk ((c :: rest).takeWhile isIdentChar)) ::
        tokenizeDecl fuel ((c :: rest).dropWhile isIdentChar)

mutual

/-- Modelled from the spec: the value parser of the external text→schema
compiler (`TypeBox` of '@sinclair/typemap' — not part of this repository's
sources): an object-type literal compiles to an object schema, the type
`string` to a string schema. -/
def parseDeclValue : Nat → List DTok → Option (SV × List DTok)
  | 0, _ => none
  | fuel + 1, .lbrace :: ts => parseDeclFields fuel ts []
  | _ + 1, .ident "string" :: ts =>
    some (.tb { kindSym := some "String", type := some "string" }, ts)
  | _, _ => none

/-- Modelled from the spec: the field list of an object-type literal; every
listed key is required (the compiler omits `required` when there are no
fields). -/
def parseDeclFields (fuel : Nat) (ts : List DTok) (acc : List (String × SV)) :
    Option (SV × List DTok) :=
  match fuel, ts with
  | 0, _ => none
  | _ + 1, .rbrace :: ts2 =>
    some (.tb { kindSym := some "Object", type := some "object",
                properties := some acc,
                required := if acc.isEmpty then none
                  else some (acc.map (fun p => p.1)) }, ts2)
  | fuel + 1, .sep :: ts2 => parseDeclFields fuel ts2 acc
  | fuel + 1, .ident k :: .colon :: ts2 =>
    match parseDeclValue fuel ts2 with
    | some (v, ts3) => parseDeclFields fuel ts3 (acc ++ [(k, v)])
    | none => none
  | fuel + 1, .strLit k :: .colon :: ts2 =>
    match parseDeclValue fuel ts2 with
    | some (v, ts3) => parseDeclFields fuel ts3 (acc ++ [(k, v)])
    | none => none
  | _, _ => none

end

/-- Modelled from the spec: the external text→schema compiler applied to one
extracted fragment (`TypeBox(route)`), which "converts a quoted,
readonly-stripped TypeScript-like object-type literal into a canonical
schema tree". Returns `none` outside the modelled fragment of the input
language. -/
def typeBoxCompile (code : List Char) : Option SV :=
  match parseDeclValue (code.length + 1) (tokenizeDecl (code.length + 1) code) with
  | some (v, _) => some v
  | none => none

/-- A field of a mined route descriptor: a schema, or (for the flattened
`response` field) a status-keyed map of schemas. -/
inductive DescVal where
  | sv (v : SV)
  | statusMap (entries : List (String × SV))

/-- A mined `path → method → descriptor` mapping (`AdditionalReference`). -/
abbrev GenRoutes : Type := List (String × List (String × List (String × DescVal)))

/-- The single-key descent loop of `declarationToJSONSchema`: push the key
while the current object has exactly one property, stop when a level has
more than one property or the descended value has no properties. -/
def foldPaths : Nat → SV → List String → List String × SV
  | 0, s, acc => (acc, s)
  | fuel + 1, s, acc =>
    let props := s.propertiesF.getD []
    if props.length = 1 then
      let kv := props.headD ("", .other false)
      if kv.2.propertiesF.isSome then foldPaths fuel kv.2 (acc ++ [kv.1])
      else (acc ++ [kv.1], kv.2)
    else (acc, s)

/-- `declarationToJSONSchema` (src/gen/index.ts): quote numeric keys,
extract the sibling root object fragments, compile each (readonly-stripped)
fragment, fold the single-key chain into path segments plus a trailing
method key, flatten an object-typed `response` field one level into a
status map, and collect the descriptors per path and lower-cased method. -/
def declarationToJSONSchema (code : List Char) : GenRoutes :=
  (extractRootObjects (quoteNumericKeys (code.length + 1) code)).foldl
    (fun routes frag =>
      match typeBoxCompile (stripReadonly (frag.length + 1) frag) with
      | none => routes
      | some schema =>
        if schema.typeF ≠ some "object" then routes
        else
          let pl := foldPaths (frag.length + 1) schema []
          match pl.1.getLast? with
          | none => routes
          | some method =>
            if method = "" then routes
            else
              let segs := pl.1.dropLast
              let path := "/" ++ String.intercalate "/" segs
              let bag := pl.2.propertiesF.getD []
              let desc := bag.map (fun p =>
                if p.1 = "response" && p.2.typeF = some "object" then
                  (p.1, DescVal.statusMap (p.2.propertiesF.getD []))
                else (p.1, DescVal.sv p.2))
              let mmap := (lookupKey routes path).getD []
              setKey routes path (setKey mmap (toLowerS method) desc))
    []

/-- The schema an empty object-type literal compiles to. -/
def emptyObjectSchema : SV :=
  .tb { kindSym := some "Object", type := some "object", properties := some [] }

/-- C9: mining the declaration text
`\x7b hello: \x7b world: \x7b get: \x7b params:\x7b\x7d query:\x7b\x7d headers:\x7b\x7d body:\x7b\x7d response:\x7b200:\x7bname:string\x7d\x7d \x7d \x7d \x7d \x7d`
yields the single path key `/hello/world` mapping method `get` to a
descriptor whose `response` is a status map with key `200` holding an
object schema with a required string-typed property `name` (the compiler's
object wrapper around the status map flattened away). -/
theorem claim_C9_declaration_miner :
    declarationToJSONSchema
      ("\x7b hello: \x7b world: \x7b get: \x7b params:\x7b\x7d query:\x7b\x7d headers:\x7b\x7d body:\x7b\x7d response:\x7b200:\x7bname:string\x7d\x7d \x7d \x7d \x7d \x7d".toList) =
      [("/hello/world",
        [("get",
          [("params", .sv emptyObjectSchema),
           ("query", .sv emptyObjectSchema),
           ("headers", .sv emptyObjectSchema),
           ("body", .sv emptyObjectSchema),
           ("response", .statusMap
             [("200",
               .tb { kindSym := some "Object", type := some "object",
                     properties := some [("name", .tb { kindSym := some "String", type := some "string" })],
                     required := some ["name"] })])])])] := by
  rfl

-- ===========================================================================
-- Assembly Pipeline: `toOpenAPISchema` (src/openapi.ts)
-- ===========================================================================

/-- `schema.description`. -/
def SV.descriptionF : SV → Option String
  | .tb f => f.description
  | _ => none

/-- Truthiness of a string-valued JS property. -/
def strOptTruthy : Option String → Bool
  | some t => t ≠ ""
  | none => false

/-- A route's response slot: a single schema value, or a status-keyed map. -/
inductive RespSlot where
  | single (s : SV)
  | map (entries : List (String × SV))

/-- The `detail` bag of a route (the fields the pipeline reads). -/
structure Detail where
  hide : Bool := false
  tags : Option (List String) := none
  operationId : Option String := none
  summary : Option String := none
  descr : Option String := none

/-- One entry of `hooks.parse`: an inline function (skipped) or a named
content-type shorthand. -/
inductive ParseHook where
  | fn
  | named (s : String)

/-- One `standaloneValidator` entry (an `InputSchema`). -/
structure Validator where
  body : Option SV := none
  query : Option SV := none
  params : Option SV := none
  headers : Option SV := none
  cookie : Option SV := none
  response : Option RespSlot := none

/-- A route's hook bag. -/
structure Hooks where
  body : Option SV := none
  query : Option SV := none
  params : Option SV := none
  headers : Option SV := none
  cookie : Option SV := none
  response : Option RespSlot := none
  detail : Option Detail := none
  parse : Option (List ParseHook) := none
  standaloneValidator : Option (List Validator) := none

/-- One route of the registry. -/
structure Route where
  method : String
  path : String
  hooks : Option Hooks := none

/-- One `reference[path][method]` entry of an additional reference. -/
structure Refer where
  body : Option SV := none
  query : Option SV := none
  params : Option SV := none
  headers : Option SV := none
  response : Option (List (String × SV)) := none

/-- An additional reference: `path → method → Refer`. -/
abbrev AdditionalReference :=
  List (String × List (String × Refer))

/-- `isValidSchema` (src/openapi.ts). -/
def isValidSchema : Option SV → Bool
  | some (.tb f) =>
    (f.kindSym.isSome && f.kindSym ≠ some "Unknown")
    || strOptTruthy f.type
    || f.properties.isSome
    || (match f.items with
        | some v => v.truthy
        | none => false)
  | _ => false

/-- `getLoosePath` (src/openapi.ts). -/
def getLoosePath (path : String) : String :=
  if path.data.getLast? = some '/' then String.mk path.data.dropLast
  else path ++ "/"

/-- JS truthiness of `map[k]` for an association list. -/
def truthyLookup (l : List (String × SV)) (k : String) : Bool :=
  match lookupKey l k with
  | some v => v.truthy
  | none => false

/-- A single optional JS-object entry (present only when the field is). -/
def optEntry (k : String) (v : Option SV) : List (String × SV) :=
  match v with
  | some x => [(k, x)]
  | none => []

/-- The JS-object entries of a schema value when it is iterated or indexed
as a plain object (symbol keys are skipped; a non-string field value is
modelled by a placeholder carrying its truthiness, which — together with
the fact that `unwrapSchema` returns `undefined` on any such value — is all
the pipeline observes about it; `items` holds an actual schema and is kept).
The fixed field order stands in for the object's insertion order. -/
def SV.jsEntries : SV → List (String × SV)
  | .tb f =>
    optEntry "type" (f.type.map SV.str) ++
    optEntry "properties" (f.properties.map (fun _ => SV.other true)) ++
    optEntry "required" (f.required.map (fun _ => SV.other true)) ++
    optEntry "additionalProperties"
      (f.additionalProperties.map (fun b => SV.other b)) ++
    optEntry "items" f.items ++
    optEntry "anyOf" (f.anyOf.map (fun _ => SV.other true)) ++
    optEntry "allOf" (f.allOf.map (fun _ => SV.other true)) ++
    optEntry "const" (f.constV.map (fun c =>
      match c with
      | .str cs => SV.str cs
      | .num n => SV.other (decide (n ≠ 0))
      | .bool b => SV.other b)) ++
    optEntry "enum" (f.enumV.map (fun _ => SV.other true)) ++
    optEntry "description" (f.description.map SV.str) ++
    optEntry "$ref" (f.refV.map SV.str)
  | .vendor _ => [("~standard", SV.other true)]
  | _ => []
/-- `typeof hooks.response !== 'object' || (hooks.response).type ||
(hooks.response).$ref || (hooks.response)['~standard']`. -/
def respSchemaLike : RespSlot → Bool
  | .single s =>
    !s.isObjectTy || strOptTruthy s.typeF || strOptTruthy s.refF ||
      s.hasStandard
  | .map e =>
    truthyLookup e "type" || truthyLookup e "$ref" ||
      truthyLookup e "~standard"

/-- JS falsiness of a response slot (`!hooks.response`). -/
def respSlotFalsy : Option RespSlot → Bool
  | none => true
  | some (.single s) => !s.truthy
  | some (.map _) => false

/-- A response slot used where one schema value is expected (a status map is
then a plain non-schema object, on which `unwrapSchema` yields
`undefined`). -/
def RespSlot.asSV : RespSlot → SV
  | .single s => s
  | .map _ => .other true

/-- The entries of a response slot when it is indexed or iterated as a
status map (`Object.entries(hooks.response)`). -/
def RespSlot.statusEntries : RespSlot → List (String × SV)
  | .single s => s.jsEntries
  | .map e => e

/-- `reference[route.path]?.[method] ?? reference[getLoosePath(route.path)]?.[method]`. -/
def lookupRefer (r : AdditionalReference) (path method : String) :
    Option Refer :=
  match (match lookupKey r path with
         | some mm => lookupKey mm method
         | none => none) with
  | some x => some x
  | none =>
    match lookupKey r (getLoosePath path) with
    | some mm => lookupKey mm method
    | none => none

/-- Processing of one valid `(status, schema)` pair of `refer.response` by
the reference-filling loop: create `\x7b\x7d` for a falsy slot; wrap a
schema-like slot as its own `200` entry; then set the status key when it is
absent or falsy. A non-schema-like single value is grafted in place in the
source; this is modelled by flattening it into its JS-object entries. -/
def respStep (s : Option RespSlot) (e : String × SV) : RespSlot :=
  let base : List (String × SV) :=
    if respSlotFalsy s then []
    else
      match s.getD (.map []) with
      | .single sv =>
        if respSchemaLike (.single sv) then [("200", sv)]
        else sv.jsEntries
      | .map m =>
        if respSchemaLike (.map m) then [("200", SV.other true)]
        else m
  if truthyLookup base e.1 then .map base
  else .map (setKey base e.1 e.2)

/-- `respStep` with the result re-wrapped as a slot. -/
def respStepO (s : Option RespSlot) (e : String × SV) : Option RespSlot :=
  some (respStep s e)

/-- One `fillOne` slot update: fill an empty (falsy) slot with a valid
reference schema. -/
def fillSlot (cur : Option SV) (cand : Option SV) : Option SV :=
  if slotFalsy cur && isValidSchema cand then cand else cur

/-- The body of the per-reference filling loop of `toOpenAPISchema` for one
matched `Refer`. -/
def fillOne (h : Hooks) (refer : Refer) : Hooks :=
  { h with
    body := fillSlot h.body refer.body,
    query := fillSlot h.query refer.query,
    params := fillSlot h.params refer.params,
    headers := fillSlot h.headers refer.headers,
    response :=
      match refer.response with
      | none => h.response
      | some entries =>
        (entries.filter (fun q => isValidSchema (some q.2))).foldl
          respStepO h.response }

/-- The whole reference-filling pass over a route's hooks. -/
def fillHooks (h : Hooks) (refs : List AdditionalReference)
    (path method : String) : Hooks :=
  refs.foldl
    (fun h r =>
      match lookupRefer r path method with
      | none => h
      | some refer => fillOne h refer)
    h

-- ===========================================================================
-- Standalone-validator flattening (src/openapi.ts)
-- ===========================================================================

/-- The per-value normalization inside `unwrapResponseSchema`'s
`Object.fromEntries` branch: a string becomes a reference node, a TypeBox
schema is kept, anything else goes through `unwrapSchema` (whose `undefined`
result is modelled by the falsy placeholder). -/
def unwrapRespValue (vendors : MapJsonSchema) (v : SV) : SV :=
  match v with
  | .str n => (normalizeSchemaReference (some (.str n))).getD (.other false)
  | v =>
    if isTSchema v then v
    else (unwrapSchemaR (some v) vendors .output).getD (.other false)

/-- `unwrapResponseSchema` (src/openapi.ts). A non-TypeBox, non-vendor single
object falls into the `Object.fromEntries` branch and is hence iterated as a
status map of its JS-object entries. -/
def unwrapResponseSchema (vendors : MapJsonSchema) :
    RespSlot → Option RespSlot
  | .single (.str n) => (normalizeSchemaReference (some (.str n))).map .single
  | .single s =>
    if !s.truthy then none
    else if isTSchema s then some (.single s)
    else if s.hasStandard then
      (unwrapSchemaR (some s) vendors .output).map RespSlot.single
    else some (.map (s.jsEntries.map (fun q => (q.1, unwrapRespValue vendors q.2))))
  | .map m => some (.map (m.map (fun q => (q.1, unwrapRespValue vendors q.2))))

/-- The unwrapped side is re-keyed as its own `200` entry when it is a single
TypeBox or vendor schema; any other slot is used as a status map directly. -/
def RespSlot.toStatusMap : RespSlot → List (String × SV)
  | .single s => if isTSchema s || s.hasStandard then [("200", s)] else s.jsEntries
  | .map m => m

/-- `mergeResponseSchema` (src/openapi.ts). -/
def mergeResponseSchema (vendors : MapJsonSchema)
    (ex inc : Option RespSlot) : Option RespSlot :=
  if respSlotFalsy ex then inc
  else if respSlotFalsy inc then ex
  else
    let existing := ex.bind (unwrapResponseSchema vendors)
    let incoming := inc.bind (unwrapResponseSchema vendors)
    if respSlotFalsy existing && respSlotFalsy incoming then none
    else if respSlotFalsy existing then incoming
    else if respSlotFalsy incoming then existing
    else
      let exM := (existing.getD (.map [])).toStatusMap
      let incM := (incoming.getD (.map [])).toStatusMap
      some (.map ((exM.map Prod.fst).foldl
        (fun acc status =>
          let eS := lookupKey exM status
          let iS := lookupKey incM status
          if optTruthy eS && optTruthy iS then
            match mergeSchemaProperty eS iS vendors with
            | some v => setKey acc status v
            | none => acc
          else if optTruthy eS then setKey acc status (eS.getD (.other false))
          else if optTruthy iS then setKey acc status (iS.getD (.other false))
          else acc)
        incM))

/-- One `typeof merged.x === 'string'` normalization of the final merge. -/
def normStrSlot (s : Option SV) : Option SV :=
  match s with
  | some (.str n) => normalizeSchemaReference (some (.str n))
  | s => s

/-- The response-slot pass of the same normalization: a string slot is left
alone, a slot carrying a `type` or `$ref` key is a schema and is left alone,
and a status-map slot has each string value normalized in place. (For a
single non-schema object the source would also rewrite its string-valued
fields; those fields of a TypeBox or vendor node are not schema-valued in
this embedding, so the node is kept as is.) -/
def normalizeRespSlot (vendors : MapJsonSchema) :
    Option RespSlot → Option RespSlot
  | some (.map m) =>
    if truthyLookup m "type" || (lookupKey m "$ref").isSome then
      some (.map m)
    else
      some (.map (m.map (fun q =>
        (q.1, (normStrSlot (some q.2)).getD q.2))))
  | s => s

/-- `mergeStandaloneValidators` (src/openapi.ts): fold every standalone
validator's slots into the hook bag, then normalize leftover string
references. -/
def mergeStandaloneValidators (vendors : MapJsonSchema) (h : Hooks) : Hooks :=
  match h.standaloneValidator with
  | none => h
  | some vs =>
    if vs.isEmpty then h
    else
      let merged := vs.foldl
        (fun m v =>
          let m := if optTruthy v.body then
              { m with body := mergeSchemaProperty m.body v.body vendors }
            else m
          let m := if optTruthy v.headers then
              { m with headers := mergeSchemaProperty m.headers v.headers vendors }
            else m
          let m := if optTruthy v.query then
              { m with query := mergeSchemaProperty m.query v.query vendors }
            else m
          let m := if optTruthy v.params then
              { m with params := mergeSchemaProperty m.params v.params vendors }
            else m
          let m := if optTruthy v.cookie then
              { m with cookie := mergeSchemaProperty m.cookie v.cookie vendors }
            else m
          if !respSlotFalsy v.response then
            { m with response := mergeResponseSchema vendors m.response v.response }
          else m)
        h
      let merged := { merged with
        body := normStrSlot merged.body,
        headers := normStrSlot merged.headers,
        query := normStrSlot merged.query,
        params := normStrSlot merged.params,
        cookie := normStrSlot merged.cookie }
      if respSlotFalsy merged.response then merged
      else
        match merged.response with
        | some (.single (.str _)) => merged
        | r => { merged with response := normalizeRespSlot vendors r }

/-- `flattenRoutes` applied to one route's hooks: routes without standalone
validators keep the same hook bag (so later in-place hook mutation reaches
the registry), the rest get a freshly merged bag. -/
def flattenHooks (vendors : MapJsonSchema) (h : Hooks) : Hooks :=
  if (h.standaloneValidator.getD []).isEmpty then h
  else mergeStandaloneValidators vendors h

-- ===========================================================================
-- Operation emission (src/openapi.ts, `toOpenAPISchema` main loop)
-- ===========================================================================

/-- `capitalize` (src/openapi.ts) on a character list. -/
def capitalizeL : List Char → List Char
  | [] => []
  | c :: rest => c.toUpper :: rest

/-- `String.prototype.split` with a one-character separator (keeps empty
pieces, as JS does). -/
def splitCharL (sep : Char) : List Char → List (List Char)
  | [] => [[]]
  | c :: rest =>
    match splitCharL sep rest with
    | [] => [[c]]
    | h :: t => if c = sep then [] :: h :: t else (c :: h) :: t

/-- `String.prototype.replace` with a plain-string pattern: only the first
occurrence is replaced (here: dropped). -/
def removeFirstChar (c : Char) : List Char → List Char
  | [] => []
  | x :: xs => if x = c then xs else x :: removeFirstChar c xs

/-- `operationId.replace(/\?/g, 'Optional')`. -/
def replaceQOptional (l : List Char) : List Char :=
  l.flatMap (fun c =>
    if c = '?' then ['O', 'p', 't', 'i', 'o', 'n', 'a', 'l'] else [c])

/-- `toOperationId` (src/openapi.ts). -/
def toOperationId (method path : String) : String :=
  let oid := toLowerS method
  if path = "" || path = "/" then oid ++ "Index"
  else
    String.mk (replaceQOptional
      ((splitCharL '/' path.data).foldl
        (fun acc p =>
          if p.contains ':' then
            acc ++ ('B' :: 'y' :: capitalizeL (removeFirstChar ':' p))
          else acc ++ capitalizeL p)
        oid.data))

/-- The scanner behind `route.path.matchAll(/:([^\/]+)/g)`: left-to-right,
greedy, non-overlapping matches; the state holds the reversed characters of
the parameter name being collected. -/
def ppScan : Option (List Char) → List Char → List (List Char)
  | none, [] => []
  | some acc, [] => if acc.isEmpty then [] else [acc.reverse]
  | none, c :: rest => if c = ':' then ppScan (some []) rest else ppScan none rest
  | some acc, c :: rest =>
    if c = '/' then
      if acc.isEmpty then ppScan none rest
      else acc.reverse :: ppScan none rest
    else ppScan (some (c :: acc)) rest

/-- The captured groups of `route.path.matchAll(/:([^\/]+)/g)`. -/
def pathParamNames (l : List Char) : List (List Char) := ppScan none l

/-- The scanner behind `path.replace(/:([^\/]+)/g, String.mk ['\x7b', '$', '1', '\x7d'])`. -/
def tmplGo : Option (List Char) → List Char → List Char
  | none, [] => []
  | some acc, [] =>
    if acc.isEmpty then [':'] else '\x7b' :: (acc.reverse ++ ['\x7d'])
  | none, c :: rest => if c = ':' then tmplGo (some []) rest else c :: tmplGo none rest
  | some acc, c :: rest =>
    if c = '/' then
      (if acc.isEmpty then [':'] else '\x7b' :: (acc.reverse ++ ['\x7d'])) ++
        (c :: tmplGo none rest)
    else tmplGo (some (c :: acc)) rest

/-- Replace every `:name` path segment by its braced template form. -/
def templatize (l : List Char) : List Char := tmplGo none l

/-- `ref.slice(ref.lastIndexOf('/') + 1)`. -/
def afterLastSlash (r : String) : String :=
  String.mk ((r.data.reverse.takeWhile (fun c => c ≠ '/')).reverse)

/-- `unwrapReference` (src/openapi.ts): resolve a `$ref` against the
definitions table when the referenced name is registered (and truthy), then
fold enums; a schema without a truthy `$ref` is returned unchanged. -/
def unwrapReference (schema : Option SV) (defs : List (String × SV)) :
    Option SV :=
  match schema with
  | none => none
  | some s =>
    match s.refF with
    | none => some s
    | some r =>
      if r = "" then some s
      else
        let s2 :=
          match lookupKey defs (afterLastSlash r) with
          | some d => if d.truthy then d else s
          | none => s
        some (enumToOpenApi s2)

/-- One emitted `parameters` entry. -/
structure Param where
  name : String
  location : String
  required : Bool
  schema : SV

/-- The parameter entries contributed by one object schema slot
(`Object.entries(x.properties)` with per-name required lookup). -/
def paramsOfSchema (vendors : MapJsonSchema) (defs : List (String × SV))
    (slot : Option SV) (loc : String) (alwaysReq : Bool) : List Param :=
  match unwrapReference (unwrapSchemaR slot vendors .input) defs with
  | none => []
  | some p =>
    if p.truthy && p.typeF = some "object" && p.propertiesF.isSome then
      (p.propertiesF.getD []).map (fun q =>
        { name := q.1, location := loc,
          required := alwaysReq || (p.requiredF.getD []).contains q.1,
          schema := q.2 })
    else []

/-- The whole `parameters` array of one operation: path parameters from the
`params` schema (or, when that slot is falsy, synthesized from the `:name`
segments of the route path with a string schema), then query, header and
cookie parameters; path parameters are always required, the rest only when
listed in their schema's own `required` array. -/
def buildParameters (vendors : MapJsonSchema) (defs : List (String × SV))
    (h : Hooks) (path : String) : List Param :=
  (if optTruthy h.params then paramsOfSchema vendors defs h.params "path" true
   else
     (pathParamNames path.data).map (fun nm =>
       { name := String.mk (removeFirstChar '?' nm), location := "path",
         required := true, schema := .tb { type := some "string" } })) ++
  (if optTruthy h.query then paramsOfSchema vendors defs h.query "query" false
   else []) ++
  (if optTruthy h.headers then
     paramsOfSchema vendors defs h.headers "header" false
   else []) ++
  (if optTruthy h.cookie then
     paramsOfSchema vendors defs h.cookie "cookie" false
   else [])

/-- `type === 'string' || 'number' || 'integer' || 'boolean'`. -/
def isTextualTy (t : Option String) : Bool :=
  t = some "string" || t = some "number" || t = some "integer" ||
    t = some "boolean"

/-- `type === 'void' || 'null' || 'undefined'`. -/
def isVoidishTy (t : Option String) : Bool :=
  t = some "void" || t = some "null" || t = some "undefined"

/-- The emitted `requestBody` (media type → schema; the source's
per-media-type wrapper around the schema is implicit). -/
structure RequestBody where
  descr : Option String
  required : Bool
  content : List (String × SV)

/-- One step of the `hooks.parse` content loop. -/
def parseContentStep (body : SV) (content : List (String × SV))
    (p : ParseHook) : List (String × SV) :=
  match p with
  | .fn => content
  | .named s =>
    if s = "text" || s = "text/plain" then
      setKey content "text/plain" body
    else if s = "urlencoded" || s = "application/x-www-form-urlencoded" then
      setKey content "application/x-www-form-urlencoded" body
    else if s = "json" || s = "application/json" then
      setKey content "application/json" body
    else if s = "formdata" || s = "multipart/form-data" then
      setKey content "multipart/form-data" body
    else content

/-- The `requestBody` emission: runs only for a truthy body slot on a
non-GET/HEAD method; the media types come from `hooks.parse` when present,
otherwise from whether the unwrapped type is textual. -/
def buildRequestBody (vendors : MapJsonSchema) (defs : List (String × SV))
    (h : Hooks) (method : String) : Option RequestBody :=
  if optTruthy h.body && method ≠ "get" && method ≠ "head" then
    match unwrapSchemaR h.body vendors .input with
    | none => none
    | some body =>
      let u := (unwrapReference (some body) defs).getD body
      some (match h.parse with
        | some ps =>
          { descr := u.descriptionF, required := true,
            content := ps.foldl (parseContentStep body) [] }
        | none =>
          { descr := u.descriptionF, required := true,
            content :=
              if isTextualTy u.typeF then [("text/plain", body)]
              else
                [("application/json", body),
                 ("application/x-www-form-urlencoded", body),
                 ("multipart/form-data", body)] })
  else none

/-- The `content` of one emitted response entry: the void/null/undefined
branch keeps the destructured `type` and `description` as the content value
itself, the others are media-type maps. -/
inductive RespContent where
  | voidish (ty : Option String) (descr : Option String)
  | media (entries : List (String × SV))

/-- One emitted response entry. -/
structure ResponseEntry where
  descr : String
  content : RespContent

/-- The response entry built for one status from an unwrapped schema. -/
def respEntryFor (defs : List (String × SV)) (status : String)
    (response : SV) : ResponseEntry :=
  let u := (unwrapReference (some response) defs).getD response
  { descr := (u.descriptionF).getD ("Response for status " ++ status),
    content :=
      if isVoidishTy u.typeF then .voidish u.typeF u.descriptionF
      else if isTextualTy u.typeF then .media [("text/plain", response)]
      else .media [("application/json", response)] }

/-- The `responses` emission: a falsy slot emits nothing at all; a truthy
slot first assigns an empty responses object, then either iterates the
status map (the non-schema-like object branch) or emits the single schema
under status `200`. -/
def buildResponses (vendors : MapJsonSchema) (defs : List (String × SV))
    (slot : Option RespSlot) : Option (List (String × ResponseEntry)) :=
  if respSlotFalsy slot then none
  else
    match slot with
    | none => none
    | some rs =>
      some (
        if respSchemaLike rs then
          match unwrapSchemaR (some rs.asSV) vendors .output with
          | none => []
          | some response => [("200", respEntryFor defs "200" response)]
        else
          rs.statusEntries.foldl
            (fun acc q =>
              match unwrapSchemaR (some q.2) vendors .output with
              | none => acc
              | some response => setKey acc q.1 (respEntryFor defs q.1 response))
            [])

/-- One emitted operation object: the spread `detail` fields plus the
assembled parts and the per-path `operationId`. -/
structure Operation where
  detail : Detail
  parameters : Option (List Param)
  requestBody : Option RequestBody
  responses : Option (List (String × ResponseEntry))
  operationId : String

/-- The emitted document (insertion-ordered objects). -/
structure OpenApiDoc where
  schemas : List (String × SV)
  paths : List (String × List (String × Operation))

/-- The materialized `exclude` configuration. -/
structure ExcludeCfg where
  methods : List String := ["options"]
  staticFile : Bool := true
  tags : Option (List String) := none
  paths : List String := []

/-- Kernel-executable form of `getPossiblePath` used by the assembly loop
(equal to it by `getPossiblePathRun_eq` below). -/
def getPossiblePathRun (l : List Char) : List (List Char) :=
  getPossiblePathF (l.length + 1) l

theorem getPossiblePathRun_eq (l : List Char) :
    getPossiblePathRun l = getPossiblePath l :=
  getPossiblePathF_eq _ l (Nat.lt_succ_self _)

/-- The eight methods an `all` route expands to. -/
def allMethods : List String :=
  ["get", "post", "put", "delete", "patch", "head", "options", "trace"]

/-- The accumulating state of the route loop: the `paths` object and the
route registry as left behind by the loop's in-place hook mutation. -/
structure GenState where
  paths : List (String × List (String × Operation)) := []
  registry : List Route := []

/-- The path-expansion tail of the loop: build the operation object once,
then write it (with the per-path `operationId`, the explicit
`detail.operationId` taking precedence over the synthesized one) under every
expanded, templatized path, under the route method or all eight methods for
an `all` route. -/
def emitRoute (vendors : MapJsonSchema) (defs : List (String × SV))
    (paths : List (String × List (String × Operation))) (route : Route)
    (hooks : Hooks) (method : String) :
    List (String × List (String × Operation)) :=
  let ps := buildParameters vendors defs hooks route.path
  let operation : Operation :=
    { detail := hooks.detail.getD {},
      parameters := if ps.length > 0 then some ps else none,
      requestBody := buildRequestBody vendors defs hooks method,
      responses := buildResponses vendors defs hooks.response,
      operationId := "" }
  (getPossiblePathRun route.path.data).foldl
    (fun acc pl =>
      let oid := (hooks.detail.bind Detail.operationId).getD
        (toOperationId route.method (String.mk pl))
      let tpath := String.mk (templatize pl)
      let cur := (lookupKey acc tpath).getD []
      let ms := if method ≠ "all" then [method] else allMethods
      setKey acc tpath
        (ms.foldl (fun c mm => setKey c mm { operation with operationId := oid })
          cur))
    paths

/-- `flattenRoutes` applied to one route, as the hook bag the loop sees. -/
def flatHooksOf (vendors : MapJsonSchema) (route : Route) : Option Hooks :=
  match route.hooks with
  | none => none
  | some h =>
    if (h.standaloneValidator.getD []).isEmpty then some h
    else some (mergeStandaloneValidators vendors h)

/-- `route.hooks?.detail?.hide`. -/
def routeHidden (vendors : MapJsonSchema) (route : Route) : Bool :=
  (((flatHooksOf vendors route).bind Hooks.detail).map Detail.hide).getD false

/-- The static-file / excluded-path / excluded-method skip test. -/
def routeSkip (cfg : ExcludeCfg) (route : Route) (method : String) : Bool :=
  (cfg.staticFile && route.path.data.contains '.') ||
    cfg.paths.contains route.path ||
    (cfg.methods.map toLowerS).contains method

/-- Whether the loop's in-place writes to the hook bag reach the registry:
they do exactly when the route owns a hook bag that was not replaced by a
fresh standalone-validator merge. -/
def routePersists (route : Route) : Bool :=
  match route.hooks with
  | none => false
  | some h => (h.standaloneValidator.getD []).isEmpty

/-- The body of the `for (const route of routes)` loop of `toOpenAPISchema`
for one route: flatten standalone validators, apply the skip rules, fill
hook slots from the additional references (in place when the route owns its
hook bag), and emit one operation per expanded path. Reading `tags` of an
absent `detail` under a configured tag exclusion is a `TypeError` in the
source; it is modelled as the `.error` outcome. -/
def processRoute (cfg : ExcludeCfg) (vendors : MapJsonSchema)
    (defs : List (String × SV)) (refs : List AdditionalReference)
    (st : GenState) (route : Route) : Except String GenState :=
  if routeHidden vendors route then
    .ok { st with registry := st.registry ++ [route] }
  else if routeSkip cfg route (toLowerS route.method) then
    .ok { st with registry := st.registry ++ [route] }
  else
    match cfg.tags with
    | some exTags =>
      match (fillHooks ((flatHooksOf vendors route).getD {}) refs route.path
          (toLowerS route.method)).detail with
      | none => .error "TypeError: cannot read tags of undefined detail"
      | some d =>
        if (d.tags.getD []).any (fun t => exTags.contains t) then
          .ok { st with registry := st.registry ++
            [if routePersists route then
              { route with
                hooks := some (fillHooks ((flatHooksOf vendors route).getD {})
                  refs route.path (toLowerS route.method)) }
             else route] }
        else
          .ok { paths := emitRoute vendors defs st.paths route
                  (fillHooks ((flatHooksOf vendors route).getD {}) refs
                    route.path (toLowerS route.method))
                  (toLowerS route.method),
                registry := st.registry ++
                  [if routePersists route then
                    { route with
                      hooks := some (fillHooks
                        ((flatHooksOf vendors route).getD {}) refs route.path
                        (toLowerS route.method)) }
                   else route] }
    | none =>
      .ok { paths := emitRoute vendors defs st.paths route
              (fillHooks ((flatHooksOf vendors route).getD {}) refs
                route.path (toLowerS route.method))
              (toLowerS route.method),
            registry := st.registry ++
              [if routePersists route then
                { route with
                  hooks := some (fillHooks ((flatHooksOf vendors route).getD {})
                    refs route.path (toLowerS route.method)) }
               else route] }

/-- `toOpenAPISchema` (src/openapi.ts) over a materialized configuration:
returns the emitted document together with the route registry as the loop's
in-place hook mutation leaves it (the registry is the shared state a second
call observes). -/
def toOpenAPISchemaStep (cfg : ExcludeCfg) (vendors : MapJsonSchema)
    (defs : List (String × SV)) (refs : List AdditionalReference)
    (routes : List Route) : Except String (OpenApiDoc × List Route) := do
  let final ← routes.foldlM (processRoute cfg vendors defs refs)
    { paths := [], registry := [] }
  let schemas := defs.foldl
    (fun acc q =>
      match unwrapSchemaR (some q.2) vendors .input with
      | some js => if js.truthy then setKey acc q.1 js else acc
      | none => acc)
    []
  pure ({ schemas := schemas, paths := final.paths }, final.registry)


-- ===========================================================================
-- The response-slot fill machine: schema-likeness lemmas
-- ===========================================================================

/-- The keys whose truthy presence makes a status map schema-like. -/
def typeishKey (st : String) : Bool :=
  st = "type" || st = "$ref" || st = "~standard"

/-- The base map the reference-filling response step works on (the `let`
inside `respStep`). -/
def respBase (s : Option RespSlot) : List (String × SV) :=
  if respSlotFalsy s then []
  else
    match s.getD (.map []) with
    | .single sv =>
      if respSchemaLike (.single sv) then [("200", sv)]
      else sv.jsEntries
    | .map m =>
      if respSchemaLike (.map m) then [("200", SV.other true)]
      else m

theorem respStep_eq (s : Option RespSlot) (e : String × SV) :
    respStep s e =
      (if truthyLookup (respBase s) e.1 then .map (respBase s)
       else .map (setKey (respBase s) e.1 e.2)) := rfl

/-- Whether the slot is a schema-like status map. -/
def slotSLMap : Option RespSlot → Bool
  | some (.map m) => respSchemaLike (.map m)
  | _ => false

/-- Whether the slot is a status map with a truthy value under `st`. -/
def slotKeyTruthy (s : Option RespSlot) (st : String) : Bool :=
  match s with
  | some (.map m) => truthyLookup m st
  | _ => false

/-- The run of `respStep` over a whole valid-entry sequence. -/
def respFold (s : Option RespSlot) (es : List (String × SV)) :
    Option RespSlot :=
  es.foldl respStepO s

theorem lookupKey_mapset {α : Type} (l : List (String × α)) (k k' : String)
    (v : α) :
    lookupKey (l.map (fun p => if p.1 = k then (k, v) else p)) k' =
      if k' = k then ((l.find? (fun p => p.1 = k)).map (fun _ => v))
      else lookupKey l k' := by
  induction l with
  | nil => by_cases h : k' = k <;> simp [lookupKey, h]
  | cons a as ih =>
    unfold lookupKey at *
    by_cases ha : a.1 = k <;> by_cases hk : k' = k
    · subst hk
      simp [List.find?_cons, ha]
    · simp only [List.map_cons, if_pos ha, List.find?_cons]
      have h1 : (decide ((k, v).1 = k')) = false := by
        simp
        exact fun h => hk h.symm
      have h2 : (decide (a.1 = k')) = false := by
        simp [ha]
        exact fun h => hk h.symm
      rw [h1, h2]
      simpa [hk] using ih
    · subst hk
      simp only [List.map_cons, if_neg ha, List.find?_cons]
      have h2 : (decide (a.1 = k')) = false := by simp [ha]
      rw [h2]
      simpa using ih
    · simp only [List.map_cons, if_neg ha, List.find?_cons]
      by_cases ha' : a.1 = k'
      · simp [ha', hk]
      · have h2 : (decide (a.1 = k')) = false := by simp [ha']
        rw [h2]
        simpa [hk] using ih

theorem lookupKey_setKey {α : Type} (l : List (String × α)) (k k' : String)
    (v : α) :
    lookupKey (setKey l k v) k' = if k' = k then some v else lookupKey l k' := by
  unfold setKey
  rcases hf : l.find? (fun p => p.1 = k) with _ | p
  · simp only [hf, Option.isSome_none, Bool.false_eq_true, if_false]
    rw [lookupKey_append]
    by_cases hk : k' = k
    · subst hk
      have : lookupKey l k' = none := by
        unfold lookupKey
        rw [hf]
        rfl
      rw [this, Option.none_or, if_pos rfl]
      unfold lookupKey
      simp [List.find?_cons]
    · rw [if_neg hk]
      rcases hl : lookupKey l k' with _ | w
      · rw [Option.none_or]
        unfold lookupKey
        have h1 : (decide ((k, v).1 = k')) = false := by
          simp
          exact fun h => hk h.symm
        simp [List.find?_cons, h1]
      · rfl
  · rw [if_pos (by rw [hf]; rfl)]
    rw [lookupKey_mapset, hf]
    rfl

theorem truthyLookup_setKey (l : List (String × SV)) (k k' : String) (v : SV) :
    truthyLookup (setKey l k v) k' =
      if k' = k then v.truthy else truthyLookup l k' := by
  unfold truthyLookup
  rw [lookupKey_setKey]
  by_cases h : k' = k <;> simp [h]

theorem isValidSchema_truthy {v : SV} (h : isValidSchema (some v) = true) :
    v.truthy = true := by
  cases v <;> simp [isValidSchema, SV.truthy] at h ⊢

theorem lookupKey_optEntry_append {k k' : String} (v : Option SV)
    (rest : List (String × SV)) :
    lookupKey (optEntry k v ++ rest) k' =
      if k' = k then
        match v with
        | some x => some x
        | none => lookupKey rest k'
      else lookupKey rest k' := by
  rcases v with _ | x
  · simp only [optEntry, List.nil_append]
    split <;> rfl
  · by_cases h : k' = k
    · subst h
      simp [optEntry, lookupKey, List.find?_cons]
    · rw [if_neg h]
      simp only [optEntry, List.cons_append, List.nil_append]
      unfold lookupKey
      have h1 : (decide ((k, x).1 = k')) = false := by
        simp
        exact fun hh => h hh.symm
      simp [List.find?_cons, h1]

theorem lookupKey_optEntry {k k' : String} (v : Option SV) :
    lookupKey (optEntry k v) k' = if k' = k then v else none := by
  have := @lookupKey_optEntry_append k k' v []
  simp only [List.append_nil] at this
  rw [this]
  rcases v with _ | x <;> split <;> simp [lookupKey, List.find?]

theorem truthyLookup_jsEntries_type (f : TBF SV) :
    truthyLookup (SV.jsEntries (.tb f)) "type" = strOptTruthy f.type := by
  unfold truthyLookup
  simp only [SV.jsEntries, List.append_assoc, lookupKey_optEntry_append,
    lookupKey_optEntry]
  rcases f.type with _ | t
  · simp [strOptTruthy]
  · simp [strOptTruthy, SV.truthy]

theorem truthyLookup_jsEntries_ref (f : TBF SV) :
    truthyLookup (SV.jsEntries (.tb f)) "$ref" = strOptTruthy f.refV := by
  unfold truthyLookup
  simp only [SV.jsEntries, List.append_assoc, lookupKey_optEntry_append,
    lookupKey_optEntry]
  rcases f.refV with _ | t
  · simp [strOptTruthy]
  · simp [strOptTruthy, SV.truthy]

theorem truthyLookup_jsEntries_std (f : TBF SV) :
    truthyLookup (SV.jsEntries (.tb f)) "~standard" = false := by
  unfold truthyLookup
  simp only [SV.jsEntries, List.append_assoc, lookupKey_optEntry_append,
    lookupKey_optEntry]
  simp

theorem respSchemaLike_map_eq (m : List (String × SV)) :
    respSchemaLike (.map m) =
      (truthyLookup m "type" || truthyLookup m "$ref" ||
        truthyLookup m "~standard") := rfl

/-- The base map a response fill step works on is never itself
schema-like: wraps produce a lone `200` key, the graft base of a
non-schema-like single value has only falsy schema-marker keys, and the
in-place branch starts from a non-schema-like map. -/
theorem respBase_not_sl (s : Option RespSlot) :
    respSchemaLike (.map (respBase s)) = false := by
  unfold respBase
  by_cases hf : respSlotFalsy s
  · simp [hf, respSchemaLike_map_eq, truthyLookup, lookupKey, List.find?]
  · rw [if_neg hf]
    rcases s with _ | rs
    · simp [respSlotFalsy] at hf
    · rcases rs with sv | m
      · by_cases hsl : respSchemaLike (.single sv)
        · simp [hsl, respSchemaLike_map_eq, truthyLookup, lookupKey,
            List.find?_cons]
        · simp only [Option.getD_some, hsl, Bool.false_eq_true, if_false]
          rcases sv with t | f | vv | b
          · simp [respSchemaLike, SV.isObjectTy] at hsl
          · simp only [respSchemaLike, SV.isObjectTy, SV.hasStandard,
              Bool.not_true, Bool.false_or, Bool.or_false] at hsl
            rw [respSchemaLike_map_eq, truthyLookup_jsEntries_type,
              truthyLookup_jsEntries_ref, truthyLookup_jsEntries_std]
            simp only [Bool.or_eq_true, not_or] at hsl
            simp [SV.typeF, SV.refF] at hsl ⊢
            exact ⟨hsl.1, hsl.2⟩
          · simp [respSchemaLike, SV.hasStandard] at hsl
          · simp [SV.jsEntries, respSchemaLike_map_eq, truthyLookup,
              lookupKey, List.find?]
      · by_cases hsl : respSchemaLike (.map m)
        · simp [hsl, respSchemaLike_map_eq, truthyLookup, lookupKey,
            List.find?_cons]
        · simpa [hsl] using (by simpa using hsl)

/-- One fill step leaves a schema-like status map exactly when the processed
status key is one of the schema-marker keys (the base is never schema-like,
so only the overwritten key can make it so). -/
theorem respStep_sl (s : Option RespSlot) (st : String) (sch : SV)
    (hch : sch.truthy = true) :
    slotSLMap (respStepO s (st, sch)) = typeishKey st := by
  have hb := respBase_not_sl s
  rw [respSchemaLike_map_eq] at hb
  simp only [Bool.or_eq_false_iff] at hb
  obtain ⟨⟨h1, h2⟩, h3⟩ := hb
  by_cases ht : truthyLookup (respBase s) st
  · simp only [respStepO, respStep_eq, ht, if_true, slotSLMap,
      respSchemaLike_map_eq, h1, h2, h3, Bool.or_false]
    unfold typeishKey
    by_cases e1 : "type" = st
    · rw [← e1] at ht
      rw [h1] at ht
      cases ht
    · by_cases e2 : "$ref" = st
      · rw [← e2] at ht
        rw [h2] at ht
        cases ht
      · by_cases e3 : "~standard" = st
        · rw [← e3] at ht
          rw [h3] at ht
          cases ht
        · simp [e1, e2, e3]
          exact ⟨⟨fun h => e1 h.symm, fun h => e2 h.symm⟩, fun h => e3 h.symm⟩
  · simp only [respStepO, respStep_eq, ht, Bool.false_eq_true, if_false,
      slotSLMap, respSchemaLike_map_eq, truthyLookup_setKey, h1, h2, h3, hch]
    unfold typeishKey
    by_cases e1 : "type" = st <;> by_cases e2 : "$ref" = st <;>
      by_cases e3 : "~standard" = st <;>
        first
          | (simp [e1, e2, e3]
             exact ⟨⟨fun h => e1 h.symm, fun h => e2 h.symm⟩,
               fun h => e3 h.symm⟩)
          | (simp [e1, e2, e3])

/-- After a fill step, the processed status key is truthy. -/
theorem respStep_keyTruthy (s : Option RespSlot) (st : String) (sch : SV)
    (hch : sch.truthy = true) :
    slotKeyTruthy (respStepO s (st, sch)) st = true := by
  by_cases ht : truthyLookup (respBase s) st
  · simp [slotKeyTruthy, respStepO, respStep_eq, ht]
  · simp [slotKeyTruthy, respStepO, respStep_eq, ht, truthyLookup_setKey, hch]

/-- A fill step treats any two schema-like status maps alike (both are
re-keyed to the same lone `200` wrapper before the write). -/
theorem respStep_sl_congr {m1 m2 : List (String × SV)} (e : String × SV)
    (h1 : respSchemaLike (.map m1) = true)
    (h2 : respSchemaLike (.map m2) = true) :
    respStep (some (.map m1)) e = respStep (some (.map m2)) e := by
  rw [respStep_eq, respStep_eq]
  have hbase : respBase (some (.map m1)) = respBase (some (.map m2)) := by
    unfold respBase
    simp [respSlotFalsy, h1, h2]
  rw [hbase]

theorem respStepO_is_map (s : Option RespSlot) (e : String × SV) :
    ∃ m, respStepO s e = some (.map m) := by
  rw [respStepO, respStep_eq]
  split
  · exact ⟨_, rfl⟩
  · exact ⟨_, rfl⟩

theorem respFold_cons (s : Option RespSlot) (e : String × SV)
    (es : List (String × SV)) :
    respFold s (e :: es) = respFold (respStepO s e) es := rfl

theorem respFold_is_map (es : List (String × SV)) :
    ∀ m, ∃ m', respFold (some (.map m)) es = some (.map m') := by
  induction es with
  | nil => exact fun m => ⟨m, rfl⟩
  | cons e rest ih =>
    intro m
    rw [respFold_cons]
    obtain ⟨m1, hm1⟩ := respStepO_is_map (some (.map m)) e
    rw [hm1]
    exact ih m1

theorem respFold_append (s : Option RespSlot) (a b : List (String × SV)) :
    respFold s (a ++ b) = respFold (respFold s a) b := by
  unfold respFold
  rw [List.foldl_append]

/-- After a nonempty run of valid entries, the state is schema-like exactly
when the last entry's status key is a schema-marker key — independently of
the starting slot. -/
theorem respFold_sl_last (es : List (String × SV)) (e : String × SV)
    (s : Option RespSlot) (hch : e.2.truthy = true) :
    slotSLMap (respFold s (es ++ [e])) = typeishKey e.1 := by
  rw [respFold_append]
  show slotSLMap (respStepO (respFold s es) e) = _
  rcases e with ⟨st, sch⟩
  exact respStep_sl _ st sch hch

/-- In a run whose every entry before the last has a non-marker status key,
a truthy status key of a non-schema-like starting map stays truthy to the
end (no re-keying wrap can occur, and writes never falsify a key). -/
theorem respFold_persist (es : List (String × SV)) :
    ∀ m st, respSchemaLike (.map m) = false → truthyLookup m st = true →
      (∀ p ∈ es, p.2.truthy = true) →
      (∀ p ∈ es.dropLast, typeishKey p.1 = false) →
      slotKeyTruthy (respFold (some (.map m)) es) st = true := by
  induction es with
  | nil =>
    intro m st _ htr _ _
    simpa [slotKeyTruthy, respFold] using htr
  | cons e rest ih =>
    intro m st hsl htr hval hdl
    rw [respFold_cons]
    have hbase : respBase (some (.map m)) = m := by
      unfold respBase
      simp [respSlotFalsy, hsl]
    rcases e with ⟨st1, sch1⟩
    have hch : sch1.truthy = true := hval (st1, sch1) (List.mem_cons_self _ _)
    by_cases ht : truthyLookup m st1
    · have hstep : respStepO (some (.map m)) (st1, sch1) = some (.map m) := by
        simp [respStepO, respStep_eq, hbase, ht]
      rw [hstep]
      cases rest with
      | nil => simpa [respFold, slotKeyTruthy] using htr
      | cons e2 rest2 =>
        refine ih m st hsl htr
          (fun p hp => hval p (List.mem_cons_of_mem _ hp)) ?_
        intro p hp
        refine hdl p ?_
        rw [List.dropLast_cons₂]
        exact List.mem_cons_of_mem _ hp
    · have hstep : respStepO (some (.map m)) (st1, sch1) =
          some (.map (setKey m st1 sch1)) := by
        simp [respStepO, respStep_eq, hbase, ht]
      rw [hstep]
      have htr2 : truthyLookup (setKey m st1 sch1) st = true := by
        rw [truthyLookup_setKey]
        by_cases h : st = st1
        · simp [h, hch]
        · simpa [h] using htr
      cases rest with
      | nil => simpa [respFold, slotKeyTruthy] using htr2
      | cons e2 rest2 =>
        have hty1 : typeishKey st1 = false := by
          refine hdl (st1, sch1) ?_
          rw [List.dropLast_cons₂]
          exact List.mem_cons_self _ _
        have hnsl2 : respSchemaLike (.map (setKey m st1 sch1)) = false := by
          have := respStep_sl (some (.map m)) st1 sch1 hch
          rw [hstep] at this
          simpa [slotSLMap, hty1] using this
        refine ih _ st hnsl2 htr2
          (fun p hp => hval p (List.mem_cons_of_mem _ hp)) ?_
        intro p hp
        refine hdl p ?_
        rw [List.dropLast_cons₂]
        exact List.mem_cons_of_mem _ hp

/-- When some entry before the last carries a schema-marker status key, the
run's outcome does not depend on which non-schema-like map it starts from:
the first wrap re-keys both runs to the same lone-`200` base. -/
theorem respFold_sync (es : List (String × SV)) :
    ∀ m1 m2, respSchemaLike (.map m1) = false →
      respSchemaLike (.map m2) = false →
      (∀ p ∈ es, p.2.truthy = true) →
      (∃ p, p ∈ es.dropLast ∧ typeishKey p.1 = true) →
      respFold (some (.map m1)) es = respFold (some (.map m2)) es := by
  induction es with
  | nil =>
    rintro m1 m2 _ _ _ ⟨p, hp, _⟩
    simp at hp
  | cons e rest ih =>
    intro m1 m2 h1 h2 hval hex
    cases rest with
    | nil =>
      obtain ⟨p, hp, _⟩ := hex
      simp at hp
    | cons e2 rest2 =>
      rcases e with ⟨st, sch⟩
      have hch : sch.truthy = true := hval (st, sch) (List.mem_cons_self _ _)
      obtain ⟨n1, hn1⟩ := respStepO_is_map (some (.map m1)) (st, sch)
      obtain ⟨n2, hn2⟩ := respStepO_is_map (some (.map m2)) (st, sch)
      by_cases hty : typeishKey st
      · have hsl1 : respSchemaLike (.map n1) = true := by
          have := respStep_sl (some (.map m1)) st sch hch
          rw [hn1] at this
          simpa [slotSLMap, hty] using this
        have hsl2 : respSchemaLike (.map n2) = true := by
          have := respStep_sl (some (.map m2)) st sch hch
          rw [hn2] at this
          simpa [slotSLMap, hty] using this
        show respFold (respStepO (some (.map m1)) (st, sch)) (e2 :: rest2) =
          respFold (respStepO (some (.map m2)) (st, sch)) (e2 :: rest2)
        rw [hn1, hn2]
        show respFold (some (respStep (some (.map n1)) e2)) rest2 =
          respFold (some (respStep (some (.map n2)) e2)) rest2
        rw [respStep_sl_congr e2 hsl1 hsl2]
      · have hnsl1 : respSchemaLike (.map n1) = false := by
          have := respStep_sl (some (.map m1)) st sch hch
          rw [hn1] at this
          simpa [slotSLMap, hty] using this
        have hnsl2 : respSchemaLike (.map n2) = false := by
          have := respStep_sl (some (.map m2)) st sch hch
          rw [hn2] at this
          simpa [slotSLMap, hty] using this
        show respFold (respStepO (some (.map m1)) (st, sch)) (e2 :: rest2) =
          respFold (respStepO (some (.map m2)) (st, sch)) (e2 :: rest2)
        rw [hn1, hn2]
        refine ih n1 n2 hnsl1 hnsl2
          (fun p hp => hval p (List.mem_cons_of_mem _ hp)) ?_
        obtain ⟨p, hp, hpty⟩ := hex
        rw [List.dropLast_cons₂] at hp
        rcases List.mem_cons.mp hp with hpe | hp2
        · exfalso
          rw [hpe] at hpty
          exact hty hpty
        · exact ⟨p, hp2, hpty⟩

/-- Replaying a valid response-entry sequence over its own outcome either
reproduces the outcome exactly or leaves both outcomes schema-like status
maps (which the emitter treats identically). -/
theorem respFold_idem (es : List (String × SV)) :
    ∀ v, (∀ p ∈ es, p.2.truthy = true) →
      respFold (respFold v es) es = respFold v es ∨
      (slotSLMap (respFold v es) = true ∧
        slotSLMap (respFold (respFold v es) es) = true) := by
  induction es with
  | nil =>
    intro v _
    left
    rfl
  | cons e rest ih =>
    intro v hval
    rcases e with ⟨st, sch⟩
    have hch : sch.truthy = true := hval (st, sch) (List.mem_cons_self _ _)
    have hval2 : ∀ p ∈ rest, p.2.truthy = true :=
      fun p hp => hval p (List.mem_cons_of_mem _ hp)
    obtain ⟨mv1, hv1⟩ := respStepO_is_map v (st, sch)
    obtain ⟨mE, hE⟩ := respFold_is_map rest mv1
    have hEfold : respFold v ((st, sch) :: rest) = some (.map mE) := by
      rw [respFold_cons, hv1, hE]
    rw [hEfold, respFold_cons]
    by_cases hsl : respSchemaLike (.map mE)
    · by_cases hty : typeishKey st
      · -- schema-like outcome, marker status: the replay's first step is a
        -- wrap-equivalent of a step from the outcome itself
        obtain ⟨mE', hE'⟩ := respStepO_is_map (some (.map mE)) (st, sch)
        have hslE' : respSchemaLike (.map mE') = true := by
          have := respStep_sl (some (.map mE)) st sch hch
          rw [hE'] at this
          simpa [slotSLMap, hty] using this
        rw [hE']
        cases rest with
        | nil =>
          right
          exact ⟨by simpa [slotSLMap] using hsl,
            by simpa [respFold, slotSLMap] using hslE'⟩
        | cons e2 rest2 =>
          have hcong := respStep_sl_congr e2 hslE' hsl
          have hfirst : respFold (some (.map mE')) (e2 :: rest2) =
              respFold (some (.map mE)) (e2 :: rest2) := by
            show respFold (some (respStep (some (.map mE')) e2)) rest2 =
              respFold (some (respStep (some (.map mE)) e2)) rest2
            rw [hcong]
          rw [hfirst]
          have := ih (some (.map mv1)) hval2
          rw [hE] at this
          exact this
      · -- schema-like outcome, non-marker status: the outcome's
        -- schema-likeness comes from the last entry; any replay ends
        -- schema-like as well
        cases rest with
        | nil =>
          exfalso
          have := respStep_sl v st sch hch
          rw [hv1] at this
          have hmv1 : mv1 = mE := by
            have : (some (RespSlot.map mv1) : Option RespSlot) =
                some (.map mE) := hE
            injection this with h
            injection h
          rw [hmv1] at this
          simp [slotSLMap, hsl, hty] at this
        | cons e2 rest2 =>
          rcases List.eq_nil_or_concat (e2 :: rest2) with hnil | ⟨L, b, hLb⟩
          · cases hnil
          · rw [List.concat_eq_append] at hLb
            have hbch : b.2.truthy = true := by
              refine hval2 b ?_
              rw [hLb]
              exact List.mem_append_right _ (List.mem_cons_self _ _)
            have hlast1 : slotSLMap (respFold (some (.map mv1))
                (e2 :: rest2)) = typeishKey b.1 := by
              rw [hLb]
              exact respFold_sl_last L b _ hbch
            rw [hE] at hlast1
            have hb1 : typeishKey b.1 = true := by
              rw [← hlast1]
              simpa [slotSLMap] using hsl
            obtain ⟨mE', hE'⟩ := respStepO_is_map (some (.map mE)) (st, sch)
            have hlast2 : slotSLMap (respFold (some (.map mE'))
                (e2 :: rest2)) = typeishKey b.1 := by
              rw [hLb]
              exact respFold_sl_last L b _ hbch
            right
            refine ⟨by simpa [slotSLMap] using hsl, ?_⟩
            rw [hE', hlast2]
            exact hb1
    · have hbase : respBase (some (.map mE)) = mE := by
        unfold respBase
        simp [respSlotFalsy, hsl]
      by_cases ht : truthyLookup mE st
      · -- the status is already truthy on the outcome: the replay's first
        -- step is a no-op
        have hstep : respStepO (some (.map mE)) (st, sch) = some (.map mE) := by
          simp [respStepO, respStep_eq, hbase, ht]
        rw [hstep]
        have := ih (some (.map mv1)) hval2
        rw [hE] at this
        exact this
      · have hstep : respStepO (some (.map mE)) (st, sch) =
            some (.map (setKey mE st sch)) := by
          simp [respStepO, respStep_eq, hbase, ht]
        rw [hstep]
        by_cases hty : typeishKey st
        · -- marker status written into a non-schema-like outcome: both the
          -- replay and the original run wrap at the next entry
          cases rest with
          | nil =>
            exfalso
            have hk := respStep_keyTruthy v st sch hch
            rw [hv1] at hk
            have hmv1 : mv1 = mE := by
              have : (some (RespSlot.map mv1) : Option RespSlot) =
                  some (.map mE) := hE
              injection this with h
              injection h
            rw [hmv1] at hk
            simp [slotKeyTruthy, ht] at hk
          | cons e2 rest2 =>
            left
            have hslE' : respSchemaLike (.map (setKey mE st sch)) = true := by
              have := respStep_sl (some (.map mE)) st sch hch
              rw [hstep] at this
              simpa [slotSLMap, hty] using this
            have hslv1 : respSchemaLike (.map mv1) = true := by
              have := respStep_sl v st sch hch
              rw [hv1] at this
              simpa [slotSLMap, hty] using this
            have hcong := respStep_sl_congr e2 hslE' hslv1
            have : respFold (some (.map (setKey mE st sch))) (e2 :: rest2) =
                respFold (some (.map mv1)) (e2 :: rest2) := by
              show respFold (some (respStep (some (.map (setKey mE st sch)))
                  e2)) rest2 =
                respFold (some (respStep (some (.map mv1)) e2)) rest2
              rw [hcong]
            rw [this, hE]
        · -- non-marker status written: either some earlier entry is a
          -- marker (runs synchronize at the wrap) or none is (the write
          -- would have persisted, contradicting the falsy lookup)
          have hnslv1 : respSchemaLike (.map mv1) = false := by
            have := respStep_sl v st sch hch
            rw [hv1] at this
            simpa [slotSLMap, hty] using this
          have hnslE' : respSchemaLike (.map (setKey mE st sch)) = false := by
            have := respStep_sl (some (.map mE)) st sch hch
            rw [hstep] at this
            simpa [slotSLMap, hty] using this
          by_cases hP : ∃ p, p ∈ rest.dropLast ∧ typeishKey p.1 = true
          · left
            have := respFold_sync rest (setKey mE st sch) mv1 hnslE' hnslv1
              hval2 hP
            rw [this, hE]
          · exfalso
            have hk1 : truthyLookup mv1 st = true := by
              have := respStep_keyTruthy v st sch hch
              rw [hv1] at this
              simpa [slotKeyTruthy] using this
            have hper := respFold_persist rest mv1 st hnslv1 hk1 hval2 ?_
            · rw [hE] at hper
              simp [slotKeyTruthy, ht] at hper
            · intro p hp
              by_cases hpt : typeishKey p.1 = true
              · exact absurd ⟨p, hp, hpt⟩ hP
              · simpa using hpt

-- ===========================================================================
-- Reference filling: per-slot characterization and idempotence
-- ===========================================================================

/-- The references that match a route (path exact or trailing-slash-loose,
then method), in application order. -/
def matchedRefers (refs : List AdditionalReference) (path method : String) :
    List Refer :=
  refs.filterMap (fun r => lookupRefer r path method)

/-- The valid response entries a list of matched references contributes. -/
def respEntriesOf (rs : List Refer) : List (String × SV) :=
  rs.flatMap (fun r =>
    (r.response.getD []).filter (fun q => isValidSchema (some q.2)))

theorem fillHooks_eq_matched (refs : List AdditionalReference)
    (path method : String) : ∀ h,
    fillHooks h refs path method = (matchedRefers refs path method).foldl fillOne h := by
  induction refs with
  | nil => intro h; rfl
  | cons r rest ih =>
    intro h
    unfold fillHooks matchedRefers at *
    rw [List.foldl_cons, List.filterMap_cons]
    rcases hl : lookupRefer r path method with _ | refer
    · simpa [hl] using ih h
    · simpa [hl] using ih (fillOne h refer)

theorem foldl_fillOne_detail (rs : List Refer) : ∀ h : Hooks,
    (rs.foldl fillOne h).detail = h.detail := by
  induction rs with
  | nil => intro h; rfl
  | cons r rest ih => intro h; simpa using ih (fillOne h r)

theorem foldl_fillOne_parse (rs : List Refer) : ∀ h : Hooks,
    (rs.foldl fillOne h).parse = h.parse := by
  induction rs with
  | nil => intro h; rfl
  | cons r rest ih => intro h; simpa using ih (fillOne h r)

theorem foldl_fillOne_cookie (rs : List Refer) : ∀ h : Hooks,
    (rs.foldl fillOne h).cookie = h.cookie := by
  induction rs with
  | nil => intro h; rfl
  | cons r rest ih => intro h; simpa using ih (fillOne h r)

theorem foldl_fillOne_standalone (rs : List Refer) : ∀ h : Hooks,
    (rs.foldl fillOne h).standaloneValidator = h.standaloneValidator := by
  induction rs with
  | nil => intro h; rfl
  | cons r rest ih => intro h; simpa using ih (fillOne h r)

theorem foldl_fillOne_body (rs : List Refer) : ∀ h : Hooks,
    (rs.foldl fillOne h).body = (rs.map Refer.body).foldl fillSlot h.body := by
  induction rs with
  | nil => intro h; rfl
  | cons r rest ih => intro h; simpa using ih (fillOne h r)

theorem foldl_fillOne_query (rs : List Refer) : ∀ h : Hooks,
    (rs.foldl fillOne h).query = (rs.map Refer.query).foldl fillSlot h.query := by
  induction rs with
  | nil => intro h; rfl
  | cons r rest ih => intro h; simpa using ih (fillOne h r)

theorem foldl_fillOne_params (rs : List Refer) : ∀ h : Hooks,
    (rs.foldl fillOne h).params = (rs.map Refer.params).foldl fillSlot h.params := by
  induction rs with
  | nil => intro h; rfl
  | cons r rest ih => intro h; simpa using ih (fillOne h r)

theorem foldl_fillOne_headers (rs : List Refer) : ∀ h : Hooks,
    (rs.foldl fillOne h).headers =
      (rs.map Refer.headers).foldl fillSlot h.headers := by
  induction rs with
  | nil => intro h; rfl
  | cons r rest ih => intro h; simpa using ih (fillOne h r)

theorem fillOne_response_eq (h : Hooks) (r : Refer) :
    (fillOne h r).response =
      respFold h.response
        ((r.response.getD []).filter (fun q => isValidSchema (some q.2))) := by
  unfold fillOne respFold
  rcases r.response with _ | es <;> simp

theorem foldl_fillOne_response (rs : List Refer) : ∀ h : Hooks,
    (rs.foldl fillOne h).response = respFold h.response (respEntriesOf rs) := by
  induction rs with
  | nil => intro h; rfl
  | cons r rest ih =>
    intro h
    have hsplit : respEntriesOf (r :: rest) =
        ((r.response.getD []).filter (fun q => isValidSchema (some q.2))) ++
          respEntriesOf rest := by
      unfold respEntriesOf
      rw [List.flatMap_cons]
    rw [List.foldl_cons, ih (fillOne h r), fillOne_response_eq, hsplit,
      respFold_append]

theorem isValidSchema_not_falsy {c : Option SV}
    (h : isValidSchema c = true) : slotFalsy c = false := by
  rcases c with _ | v
  · simp [isValidSchema] at h
  · simp [slotFalsy, isValidSchema_truthy h]

theorem slotFold_frozen (cs : List (Option SV)) : ∀ b : Option SV,
    slotFalsy b = false → cs.foldl fillSlot b = b := by
  induction cs with
  | nil => intro b _; rfl
  | cons c rest ih =>
    intro b hb
    rw [List.foldl_cons]
    have : fillSlot b c = b := by
      unfold fillSlot
      simp [hb]
    rw [this, ih b hb]

theorem slotFold_falsy (cs : List (Option SV)) : ∀ b : Option SV,
    slotFalsy (cs.foldl fillSlot b) = true → cs.foldl fillSlot b = b := by
  induction cs with
  | nil => intro b _; rfl
  | cons c rest ih =>
    intro b hf
    rw [List.foldl_cons] at hf ⊢
    by_cases hfire : slotFalsy b && isValidSchema c
    · exfalso
      have hstep : fillSlot b c = c := by
        unfold fillSlot
        simp [hfire]
      rw [hstep] at hf
      have hcv : slotFalsy c = false :=
        isValidSchema_not_falsy (by
          rcases Bool.and_eq_true_iff.mp hfire with ⟨_, h⟩
          exact h)
      rw [slotFold_frozen rest c hcv] at hf
      rw [hcv] at hf
      cases hf
    · have hstep : fillSlot b c = b := by
        unfold fillSlot
        simp only [Bool.and_eq_true_iff] at hfire
        unfold fillSlot at *
        by_cases h1 : slotFalsy b
        · by_cases h2 : isValidSchema c
          · exact absurd ⟨h1, h2⟩ hfire
          · simp [h2]
        · simp [h1]
      rw [hstep] at hf ⊢
      exact ih b hf

/-- Re-applying the slot-filling fold to its own outcome changes nothing:
a filled (hence truthy) slot is frozen, and an unfilled falsy slot only
stays falsy when no candidate was valid. -/
theorem slotFold_idem (cs : List (Option SV)) : ∀ b : Option SV,
    cs.foldl fillSlot (cs.foldl fillSlot b) = cs.foldl fillSlot b := by
  intro b
  by_cases hf : slotFalsy (cs.foldl fillSlot b)
  · have hb := slotFold_falsy cs b hf
    rw [hb]
    exact hb
  · exact slotFold_frozen cs _ (by simpa using hf)

theorem respEntriesOf_truthy (rs : List Refer) :
    ∀ q ∈ respEntriesOf rs, q.2.truthy = true := by
  intro q hq
  unfold respEntriesOf at hq
  rw [List.mem_flatMap] at hq
  obtain ⟨r, _, hq⟩ := hq
  rw [List.mem_filter] at hq
  exact isValidSchema_truthy hq.2

theorem fillHooks_detail (h : Hooks) (refs : List AdditionalReference)
    (p m : String) : (fillHooks h refs p m).detail = h.detail := by
  rw [fillHooks_eq_matched, foldl_fillOne_detail]

theorem fillHooks_parse (h : Hooks) (refs : List AdditionalReference)
    (p m : String) : (fillHooks h refs p m).parse = h.parse := by
  rw [fillHooks_eq_matched, foldl_fillOne_parse]

theorem fillHooks_cookie (h : Hooks) (refs : List AdditionalReference)
    (p m : String) : (fillHooks h refs p m).cookie = h.cookie := by
  rw [fillHooks_eq_matched, foldl_fillOne_cookie]

theorem fillHooks_standalone (h : Hooks) (refs : List AdditionalReference)
    (p m : String) :
    (fillHooks h refs p m).standaloneValidator = h.standaloneValidator := by
  rw [fillHooks_eq_matched, foldl_fillOne_standalone]

theorem fillHooks_body_idem (h : Hooks) (refs : List AdditionalReference)
    (p m : String) :
    (fillHooks (fillHooks h refs p m) refs p m).body =
      (fillHooks h refs p m).body := by
  rw [fillHooks_eq_matched, foldl_fillOne_body, fillHooks_eq_matched,
    foldl_fillOne_body]
  exact slotFold_idem _ _

theorem fillHooks_query_idem (h : Hooks) (refs : List AdditionalReference)
    (p m : String) :
    (fillHooks (fillHooks h refs p m) refs p m).query =
      (fillHooks h refs p m).query := by
  rw [fillHooks_eq_matched, foldl_fillOne_query, fillHooks_eq_matched,
    foldl_fillOne_query]
  exact slotFold_idem _ _

theorem fillHooks_params_idem (h : Hooks) (refs : List AdditionalReference)
    (p m : String) :
    (fillHooks (fillHooks h refs p m) refs p m).params =
      (fillHooks h refs p m).params := by
  rw [fillHooks_eq_matched, foldl_fillOne_params, fillHooks_eq_matched,
    foldl_fillOne_params]
  exact slotFold_idem _ _

theorem fillHooks_headers_idem (h : Hooks) (refs : List AdditionalReference)
    (p m : String) :
    (fillHooks (fillHooks h refs p m) refs p m).headers =
      (fillHooks h refs p m).headers := by
  rw [fillHooks_eq_matched, foldl_fillOne_headers, fillHooks_eq_matched,
    foldl_fillOne_headers]
  exact slotFold_idem _ _

theorem fillHooks_response_rel (h : Hooks) (refs : List AdditionalReference)
    (p m : String) :
    (fillHooks (fillHooks h refs p m) refs p m).response =
        (fillHooks h refs p m).response ∨
      (slotSLMap ((fillHooks h refs p m).response) = true ∧
        slotSLMap ((fillHooks (fillHooks h refs p m) refs p m).response) =
          true) := by
  rw [fillHooks_eq_matched, foldl_fillOne_response, fillHooks_eq_matched,
    foldl_fillOne_response]
  exact respFold_idem (respEntriesOf (matchedRefers refs p m))
    h.response (respEntriesOf_truthy _)

theorem unwrapSchemaR_other_true (vendors : MapJsonSchema) (io : IoDir) :
    unwrapSchemaR (some (.other true)) vendors io = none := rfl

/-- Two schema-like status-map response slots emit identically: both take
the single-schema branch, whose `unwrapSchema` of a plain status-map object
is `undefined`, so both emit an assigned-but-empty responses object. -/
theorem buildResponses_sl_eq {s1 s2 : Option RespSlot}
    (vendors : MapJsonSchema) (defs : List (String × SV))
    (h1 : slotSLMap s1 = true) (h2 : slotSLMap s2 = true) :
    buildResponses vendors defs s1 = buildResponses vendors defs s2 := by
  rcases s1 with _ | rs1
  · simp [slotSLMap] at h1
  rcases s2 with _ | rs2
  · simp [slotSLMap] at h2
  rcases rs1 with sv1 | m1
  · simp [slotSLMap] at h1
  rcases rs2 with sv2 | m2
  · simp [slotSLMap] at h2
  simp only [slotSLMap] at h1 h2
  unfold buildResponses
  simp only [respSlotFalsy, Bool.false_eq_true, if_false, h1, h2, if_true]
  rw [show (RespSlot.map m1).asSV = SV.other true from rfl,
    show (RespSlot.map m2).asSV = SV.other true from rfl]

/-- Emission only reads the hook bag's seven emitted-from fields and the
route's path and method; equal (or emission-equivalent) fields give equal
path contributions. -/
theorem emitRoute_congr (vendors : MapJsonSchema) (defs : List (String × SV))
    (paths : List (String × List (String × Operation))) (routeA routeB : Route)
    (h1 h2 : Hooks) (method : String)
    (hpath : routeB.path = routeA.path) (hmeth : routeB.method = routeA.method)
    (hd : h2.detail = h1.detail) (hp : h2.params = h1.params)
    (hq : h2.query = h1.query) (hh : h2.headers = h1.headers)
    (hc : h2.cookie = h1.cookie) (hb : h2.body = h1.body)
    (hpar : h2.parse = h1.parse)
    (hr : h2.response = h1.response ∨
      (slotSLMap h1.response = true ∧ slotSLMap h2.response = true)) :
    emitRoute vendors defs paths routeB h2 method =
      emitRoute vendors defs paths routeA h1 method := by
  have hps : buildParameters vendors defs h2 routeB.path =
      buildParameters vendors defs h1 routeA.path := by
    rw [hpath]
    unfold buildParameters
    rw [hp, hq, hh, hc]
  have hrb : buildRequestBody vendors defs h2 method =
      buildRequestBody vendors defs h1 method := by
    unfold buildRequestBody
    rw [hb, hpar]
  have hresp : buildResponses vendors defs h2.response =
      buildResponses vendors defs h1.response := by
    rcases hr with he | ⟨hs1, hs2⟩
    · rw [he]
    · exact buildResponses_sl_eq vendors defs hs2 hs1
  unfold emitRoute
  rw [hps, hrb, hresp, hd, hpath, hmeth]

theorem flatHooksOf_persist (vendors : MapJsonSchema) {route : Route}
    (h : routePersists route = true) :
    flatHooksOf vendors route = route.hooks := by
  unfold routePersists at h
  unfold flatHooksOf
  rcases hh : route.hooks with _ | h0
  · rfl
  · rw [hh] at h
    simp only [] at h
    simp [h]

theorem routePersists_some {route : Route} (h : routePersists route = true) :
    ∃ h0, route.hooks = some h0 ∧
      (h0.standaloneValidator.getD []).isEmpty = true := by
  unfold routePersists at h
  rcases hro : route.hooks with _ | h0
  · rw [hro] at h
    cases h
  · rw [hro] at h
    exact ⟨h0, rfl, h⟩

theorem flatHooksOf_filled (vendors : MapJsonSchema) (route : Route)
    (refs : List AdditionalReference) (p m : String)
    (hpers : routePersists route = true) :
    flatHooksOf vendors
        { route with
          hooks := some (fillHooks ((flatHooksOf vendors route).getD {}) refs p m) } =
      some (fillHooks ((flatHooksOf vendors route).getD {}) refs p m) := by
  obtain ⟨h0, hro, hempty⟩ := routePersists_some hpers
  have hfh := @flatHooksOf_persist vendors route hpers
  rw [hro] at hfh
  conv_lhs => rw [flatHooksOf]
  simp only []
  rw [fillHooks_standalone, hfh]
  simp only [Option.getD_some]
  rw [if_pos hempty]

/-- One route's second-pass processing: the registry entry a first pass
leaves behind is processed to the same paths contribution (skip decisions
and the emitted operation are unchanged by the persisted slot fills). -/
theorem processRoute_two_pass (cfg : ExcludeCfg) (vendors : MapJsonSchema)
    (defs : List (String × SV)) (refs : List AdditionalReference)
    (route : Route) (st st1 : GenState)
    (h : processRoute cfg vendors defs refs st route = .ok st1) :
    ∃ r2, st1.registry = st.registry ++ [r2] ∧
      ∀ stB : GenState, stB.paths = st.paths → ∃ st1B,
        processRoute cfg vendors defs refs stB r2 = .ok st1B ∧
        st1B.paths = st1.paths := by
  unfold processRoute at h
  by_cases hhide : routeHidden vendors route = true
  · rw [if_pos hhide] at h
    injection h with hst1
    refine ⟨route, by rw [← hst1], fun stB hpB => ?_⟩
    refine ⟨{ stB with registry := stB.registry ++ [route] }, ?_, ?_⟩
    · unfold processRoute
      rw [if_pos hhide]
    · rw [← hst1]
      simpa using hpB
  · rw [if_neg hhide] at h
    by_cases hskip : routeSkip cfg route (toLowerS route.method) = true
    · rw [if_pos hskip] at h
      injection h with hst1
      refine ⟨route, by rw [← hst1], fun stB hpB => ?_⟩
      refine ⟨{ stB with registry := stB.registry ++ [route] }, ?_, ?_⟩
      · unfold processRoute
        rw [if_neg hhide, if_pos hskip]
      · rw [← hst1]
        simpa using hpB
    · rw [if_neg hskip] at h
      by_cases hpers : routePersists route = true
      · obtain ⟨h0, hro, hempty⟩ := routePersists_some hpers
        have hfh : flatHooksOf vendors route = some h0 := by
          rw [flatHooksOf_persist vendors hpers, hro]
        set H1 := fillHooks ((flatHooksOf vendors route).getD {}) refs
          route.path (toLowerS route.method) with hH1
        set r2 : Route := { route with hooks := some H1 } with hr2
        have hflat2 : flatHooksOf vendors r2 = some H1 := by
          rw [hr2, hH1]
          exact flatHooksOf_filled vendors route refs _ _ hpers
        have hhide2 : routeHidden vendors r2 = false := by
          unfold routeHidden
          rw [hflat2]
          simp only [Option.some_bind]
          rw [hH1, fillHooks_detail, hfh]
          unfold routeHidden at hhide
          rw [hfh] at hhide
          simpa using hhide
        have hskip2 : routeSkip cfg r2 (toLowerS r2.method) = false := by
          have he : routeSkip cfg r2 (toLowerS r2.method) =
              routeSkip cfg route (toLowerS route.method) := rfl
          rw [he]
          simpa using hskip
        have hH2 : fillHooks ((flatHooksOf vendors r2).getD {}) refs r2.path
            (toLowerS r2.method) =
            fillHooks H1 refs route.path (toLowerS route.method) := by
          rw [hflat2]
          rfl
        have hH2detail : (fillHooks ((flatHooksOf vendors r2).getD {}) refs
            r2.path (toLowerS r2.method)).detail = H1.detail := by
          rw [hH2, fillHooks_detail]
        have hcongr : ∀ X, emitRoute vendors defs X r2
            (fillHooks ((flatHooksOf vendors r2).getD {}) refs r2.path
              (toLowerS r2.method)) (toLowerS r2.method) =
            emitRoute vendors defs X route H1 (toLowerS route.method) := by
          intro X
          rw [hH2]
          refine emitRoute_congr vendors defs X route r2 H1
            (fillHooks H1 refs route.path (toLowerS route.method))
            (toLowerS route.method) rfl rfl ?_ ?_ ?_ ?_ ?_ ?_ ?_ ?_
          · exact fillHooks_detail _ _ _ _
          · rw [hH1]
            exact fillHooks_params_idem _ _ _ _
          · rw [hH1]
            exact fillHooks_query_idem _ _ _ _
          · rw [hH1]
            exact fillHooks_headers_idem _ _ _ _
          · exact fillHooks_cookie _ _ _ _
          · rw [hH1]
            exact fillHooks_body_idem _ _ _ _
          · exact fillHooks_parse _ _ _ _
          · rw [hH1]
            exact fillHooks_response_rel _ _ _ _
        set H2 := fillHooks ((flatHooksOf vendors r2).getD {}) refs r2.path
          (toLowerS r2.method) with hH2T
        set M2 := toLowerS r2.method with hM2
        rcases htags : cfg.tags with _ | exTags <;> rw [htags] at h
        · injection h with hst1
          refine ⟨r2, ?_, fun stB hpB => ?_⟩
          · rw [← hst1]
            simp only []
            rw [if_pos hpers]
          · refine ⟨{ paths := emitRoute vendors defs stB.paths r2 H2 M2
                      registry := stB.registry ++
                        [if routePersists r2 then { r2 with hooks := some H2 }
                         else r2] }, ?_, ?_⟩
            · unfold processRoute
              simp only [hhide2, hskip2, Bool.false_eq_true, if_false, htags]
            · simp only []
              rw [hcongr stB.paths, hpB, ← hst1]
        · rcases hdet : H1.detail with _ | d <;> rw [hdet] at h <;>
            dsimp only at h
          · exact Except.noConfusion h
          · by_cases htag :
              (d.tags.getD []).any (fun t => exTags.contains t) = true
            · rw [if_pos htag] at h
              injection h with hst1
              refine ⟨r2, ?_, fun stB hpB => ?_⟩
              · rw [← hst1]
                simp only []
                rw [if_pos hpers]
              · refine ⟨{ stB with registry := stB.registry ++
                    [if routePersists r2 then { r2 with hooks := some H2 }
                     else r2] }, ?_, ?_⟩
                · unfold processRoute
                  simp only [hhide2, hskip2, Bool.false_eq_true, if_false,
                    htags]
                  rw [hH2detail, hdet]
                  dsimp only
                  rw [if_pos htag]
                · simp only []
                  rw [hpB, ← hst1]
            · rw [if_neg htag] at h
              injection h with hst1
              refine ⟨r2, ?_, fun stB hpB => ?_⟩
              · rw [← hst1]
                simp only []
                rw [if_pos hpers]
              · refine ⟨{ paths := emitRoute vendors defs stB.paths r2 H2 M2
                          registry := stB.registry ++
                            [if routePersists r2 then
                              { r2 with hooks := some H2 } else r2] }, ?_, ?_⟩
                · unfold processRoute
                  simp only [hhide2, hskip2, Bool.false_eq_true, if_false,
                    htags]
                  rw [hH2detail, hdet]
                  dsimp only
                  rw [if_neg htag]
                · simp only []
                  rw [hcongr stB.paths, hpB, ← hst1]
      · have hif : (if routePersists route then
            { route with
              hooks := some (fillHooks ((flatHooksOf vendors route).getD {})
                refs route.path (toLowerS route.method)) }
           else route) = route := by
          rw [if_neg hpers]
        rw [hif] at h
        set FH := fillHooks ((flatHooksOf vendors route).getD {}) refs
          route.path (toLowerS route.method) with hFH
        set MR := toLowerS route.method with hMR
        have hifF : (if routePersists route then
            { route with hooks := some FH } else route) = route := by
          rw [if_neg hpers]
        rcases htags : cfg.tags with _ | exTags <;> rw [htags] at h
        · injection h with hst1
          refine ⟨route, by rw [← hst1], fun stB hpB => ?_⟩
          refine ⟨{ paths := emitRoute vendors defs stB.paths route FH MR
                    registry := stB.registry ++
                      [if routePersists route then
                        { route with hooks := some FH } else route] }, ?_, ?_⟩
          · unfold processRoute
            rw [if_neg hhide, if_neg hskip, htags]
          · simp only []
            rw [hpB, ← hst1]
        · rcases hdet : FH.detail with _ | d <;> rw [hdet] at h <;>
            dsimp only at h
          · exact Except.noConfusion h
          · by_cases htag :
              (d.tags.getD []).any (fun t => exTags.contains t) = true
            · rw [if_pos htag] at h
              injection h with hst1
              refine ⟨route, by rw [← hst1], fun stB hpB => ?_⟩
              refine ⟨{ stB with registry := stB.registry ++
                  [if routePersists route then
                    { route with hooks := some FH } else route] }, ?_, ?_⟩
              · unfold processRoute
                rw [if_neg hhide, if_neg hskip, htags, hdet]
                dsimp only
                rw [if_pos htag]
              · simp only []
                rw [hpB, ← hst1]
            · rw [if_neg htag] at h
              injection h with hst1
              refine ⟨route, by rw [← hst1], fun stB hpB => ?_⟩
              refine ⟨{ paths := emitRoute vendors defs stB.paths route FH MR
                        registry := stB.registry ++
                          [if routePersists route then
                            { route with hooks := some FH }
                           else route] }, ?_, ?_⟩
              · unfold processRoute
                rw [if_neg hhide, if_neg hskip, htags, hdet]
                dsimp only
                rw [if_neg htag]
              · simp only []
                rw [hpB, ← hst1]

/-- The whole route loop, run a second time over the registry the first run
leaves behind, reproduces the first run's paths object. -/
theorem foldlM_two_pass (cfg : ExcludeCfg) (vendors : MapJsonSchema)
    (defs : List (String × SV)) (refs : List AdditionalReference) :
    ∀ (routes : List Route) (stA stB outA : GenState),
      stB.paths = stA.paths →
      List.foldlM (processRoute cfg vendors defs refs) stA routes = .ok outA →
      ∃ rs2 outB,
        outA.registry = stA.registry ++ rs2 ∧
        List.foldlM (processRoute cfg vendors defs refs) stB rs2 = .ok outB ∧
        outB.paths = outA.paths := by
  intro routes
  induction routes with
  | nil =>
    intro stA stB outA hpaths hfold
    have hA : stA = outA := by
      have : (Except.ok stA : Except String GenState) = .ok outA := hfold
      injection this
    refine ⟨[], stB, by rw [← hA]; simp, rfl, ?_⟩
    rw [← hA, hpaths]
  | cons r rest ih =>
    intro stA stB outA hpaths hfold
    rw [List.foldlM_cons] at hfold
    rcases hr : processRoute cfg vendors defs refs stA r with err | st1
    · rw [hr] at hfold
      exact Except.noConfusion hfold
    · rw [hr] at hfold
      have hfold2 : List.foldlM (processRoute cfg vendors defs refs) st1
          rest = .ok outA := hfold
      obtain ⟨r2, hreg1, hpass2⟩ :=
        processRoute_two_pass cfg vendors defs refs r stA st1 hr
      obtain ⟨st1B, hrunB, hpathsB⟩ := hpass2 stB hpaths
      obtain ⟨rs2, outB, hregA, hfoldB, hpathsOut⟩ :=
        ih st1 st1B outA hpathsB hfold2
      refine ⟨r2 :: rs2, outB, ?_, ?_, hpathsOut⟩
      · rw [hregA, hreg1]
        simp
      · rw [List.foldlM_cons, hrunB]
        exact hfoldB

/-- C10: for every fixed exclusion configuration, vendor converter map,
definitions table, already-materialized additional references and route
registry, a second run of the Assembly Pipeline (`toOpenAPISchemaStep`, the
embedding of `toOpenAPISchema`) over the registry the first run leaves
behind — the shared mutable state through which the first run's in-place
hook-slot fills persist — produces the identical document. (The other
shared mutable state, the per-vendor warned-flag record, is modelled by the
separate `unwrapWarnStep` because in the source it only gates one-time
console diagnostics and never affects `unwrapSchema`'s returned value.) -/
theorem claim_C10_pipeline_idempotent (cfg : ExcludeCfg)
    (vendors : MapJsonSchema) (defs : List (String × SV))
    (refs : List AdditionalReference) (routes : List Route)
    (doc : OpenApiDoc) (reg1 : List Route)
    (h : toOpenAPISchemaStep cfg vendors defs refs routes = .ok (doc, reg1)) :
    ∃ reg2, toOpenAPISchemaStep cfg vendors defs refs reg1 =
      .ok (doc, reg2) := by
  unfold toOpenAPISchemaStep at h ⊢
  rcases hf : List.foldlM (processRoute cfg vendors defs refs)
      { paths := [], registry := [] } routes with err | final
  · rw [hf] at h
    exact Except.noConfusion h
  · rw [hf] at h
    have h2 : (Except.ok
        (({ schemas := defs.foldl
              (fun acc q =>
                match unwrapSchemaR (some q.2) vendors .input with
                | some js => if js.truthy then setKey acc q.1 js else acc
                | none => acc) [],
            paths := final.paths } : OpenApiDoc), final.registry) :
          Except String (OpenApiDoc × List Route)) = .ok (doc, reg1) := h
    injection h2 with hpair
    have hdocP := congrArg Prod.fst hpair
    have hregP := congrArg Prod.snd hpair
    simp only [] at hdocP hregP
    obtain ⟨rs2, outB, hregA, hfoldB, hpathsOut⟩ :=
      foldlM_two_pass cfg vendors defs refs routes
        { paths := [], registry := [] } { paths := [], registry := [] }
        final rfl hf
    have hreg1 : reg1 = rs2 := by
      rw [← hregP, hregA]
      simp
    rw [hreg1, hfoldB]
    refine ⟨outB.registry, ?_⟩
    show Except.ok (_, outB.registry) = _
    rw [← hdocP, hpathsOut]

theorem claim_C10_pipeline_idempotent_witness :
    (toOpenAPISchemaStep {} (fun _ => none) [] []
        [{ method := "GET", path := "/a", hooks := none }] =
      .ok ({ schemas := []
             paths := [("/a", [("get",
               { detail := {}
                 parameters := none
                 requestBody := none
                 responses := none
                 operationId := "getA" })])] },
           [{ method := "GET", path := "/a", hooks := none }])) ∧
    ∃ reg2, toOpenAPISchemaStep {} (fun _ => none) [] []
        [{ method := "GET", path := "/a", hooks := none }] =
      .ok ({ schemas := []
             paths := [("/a", [("get",
               { detail := {}
                 parameters := none
                 requestBody := none
                 responses := none
                 operationId := "getA" })])] }, reg2) :=
  ⟨rfl, claim_C10_pipeline_idempotent {} (fun _ => none) [] []
    [{ method := "GET", path := "/a", hooks := none }]
    { schemas := []
      paths := [("/a", [("get",
        { detail := {}
          parameters := none
          requestBody := none
          responses := none
          operationId := "getA" })])] }
    [{ method := "GET", path := "/a", hooks := none }] rfl⟩

-- ===========================================================================
-- C3: header parameters
-- ===========================================================================

theorem paramsOfSchema_location (vendors : MapJsonSchema)
    (defs : List (String × SV)) (slot : Option SV) (loc : String)
    (alwaysReq : Bool) :
    ∀ pa ∈ paramsOfSchema vendors defs slot loc alwaysReq,
      pa.location = loc := by
  intro pa hpa
  unfold paramsOfSchema at hpa
  rcases hur : unwrapReference (unwrapSchemaR slot vendors .input) defs
      with _ | p <;> rw [hur] at hpa <;> dsimp only at hpa
  · simp at hpa
  · by_cases hc : (p.truthy && p.typeF = some "object" && p.propertiesF.isSome : Bool) = true
    · rw [if_pos hc] at hpa
      rw [List.mem_map] at hpa
      obtain ⟨q, _, hq⟩ := hpa
      rw [← hq]
    · rw [if_neg hc] at hpa
      simp at hpa

theorem optTruthy_eq_not_slotFalsy (s : Option SV) :
    optTruthy s = !slotFalsy s := by
  rcases s with _ | v <;> simp [optTruthy, slotFalsy]

theorem unwrapSchemaR_truthy {s : Option SV} {vendors : MapJsonSchema}
    {io : IoDir} {x : SV} (h : unwrapSchemaR s vendors io = some x) :
    optTruthy s = true := by
  rw [optTruthy_eq_not_slotFalsy]
  unfold unwrapSchemaR unwrapSchemaE at h
  by_cases hf : slotFalsy s = true
  · rw [if_pos hf] at h
    exact Option.noConfusion h
  · simp [hf]

/-- C3: for every route whose effective headers slot normalizes (through
`unwrapSchema` and `unwrapReference`) to a truthy object schema with
properties, the emitted header-located parameters are exactly one entry per
top-level property, in property order, each marked required exactly when
its name is listed in the headers schema's own `required` array. -/
theorem claim_C3_headers_parameters (vendors : MapJsonSchema)
    (defs : List (String × SV)) (h : Hooks) (path : String) (p : SV)
    (props : List (String × SV))
    (hu : unwrapReference (unwrapSchemaR h.headers vendors .input) defs =
      some p)
    (ht : p.truthy = true) (hty : p.typeF = some "object")
    (hpr : p.propertiesF = some props) :
    (buildParameters vendors defs h path).filter
        (fun pa => pa.location = "header") =
      props.map (fun q =>
        ({ name := q.1, location := "header",
           required := (p.requiredF.getD []).contains q.1,
           schema := q.2 } : Param)) := by
  have hnn : ∃ x, unwrapSchemaR h.headers vendors .input = some x := by
    rcases hc : unwrapSchemaR h.headers vendors .input with _ | x
    · rw [hc] at hu
      simp [unwrapReference] at hu
    · exact ⟨x, rfl⟩
  obtain ⟨x, hx⟩ := hnn
  have hopt : optTruthy h.headers = true := unwrapSchemaR_truthy hx
  unfold buildParameters
  rw [List.filter_append, List.filter_append, List.filter_append]
  have hout : ∀ (l : List Param) (loc : String), loc ≠ "header" →
      (∀ pa ∈ l, pa.location = loc) →
      l.filter (fun pa => pa.location = "header") = [] := by
    intro l loc hne hl
    rw [List.filter_eq_nil_iff]
    intro pa hpa
    rw [hl pa hpa]
    simp [hne]
  have h1 : (if optTruthy h.params then
      paramsOfSchema vendors defs h.params "path" true
    else
      (pathParamNames path.data).map (fun nm =>
        { name := String.mk (removeFirstChar '?' nm), location := "path",
          required := true, schema := .tb { type := some "string" } })).filter
      (fun pa => pa.location = "header") = [] := by
    split
    · exact hout _ "path" (by simp) (paramsOfSchema_location _ _ _ _ _)
    · refine hout _ "path" (by simp) ?_
      intro pa hpa
      rw [List.mem_map] at hpa
      obtain ⟨nm, _, hnm⟩ := hpa
      rw [← hnm]
  have h2 : (if optTruthy h.query then
      paramsOfSchema vendors defs h.query "query" false else []).filter
      (fun pa => pa.location = "header") = [] := by
    split
    · exact hout _ "query" (by simp) (paramsOfSchema_location _ _ _ _ _)
    · rfl
  have h4 : (if optTruthy h.cookie then
      paramsOfSchema vendors defs h.cookie "cookie" false else []).filter
      (fun pa => pa.location = "header") = [] := by
    split
    · exact hout _ "cookie" (by simp) (paramsOfSchema_location _ _ _ _ _)
    · rfl
  rw [h1, h2, h4]
  simp only [hopt, eq_self_iff_true, if_true]
  have h3 : paramsOfSchema vendors defs h.headers "header" false =
      props.map (fun q =>
        ({ name := q.1, location := "header",
           required := (p.requiredF.getD []).contains q.1,
           schema := q.2 } : Param)) := by
    unfold paramsOfSchema
    rw [hu]
    dsimp only
    rw [if_pos (by simp [ht, hty, hpr])]
    rw [hpr]
    simp only [Option.getD_some]
    apply List.map_congr_left
    intro q _
    simp
  rw [h3]
  rw [List.filter_eq_self.mpr]
  · simp
  · intro pa hpa
    rw [List.mem_map] at hpa
    obtain ⟨q, _, hq⟩ := hpa
    rw [← hq]
    simp

theorem unwrapSchemaR_tb_kind (f : TBF SV) (vendors : MapJsonSchema)
    (io : IoDir) (hk : f.kindSym.isSome = true) :
    unwrapSchemaR (some (.tb f)) vendors io =
      some (enumToOpenApi (.tb f)) := by
  unfold unwrapSchemaR unwrapSchemaE
  simp [slotFalsy, SV.truthy, SV.kindIn, hk]

/-- A concrete string-typed TypeBox property schema. -/
def strFieldSchema : SV :=
  SV.tb { kindSym := some "String", type := some "string" }

/-- The `TBF` record of a concrete headers object schema with one required
property. -/
def headersFieldsW : TBF SV :=
  { kindSym := some "Object", type := some "object",
    properties := some [("x-token", strFieldSchema)],
    required := some ["x-token"] }

/-- A concrete headers object schema with one required property. -/
def headersSchemaW : SV := SV.tb headersFieldsW

theorem claim_C3_headers_parameters_witness :
    (unwrapReference (unwrapSchemaR (some headersSchemaW)
        (fun _ => none) .input) [] = some headersSchemaW) ∧
    (buildParameters (fun _ => none) []
        { headers := some headersSchemaW } "/p").filter
        (fun pa => pa.location = "header") =
      [{ name := "x-token", location := "header", required := true,
         schema := strFieldSchema }] := by
  have hS : enumToOpenApi strFieldSchema = strFieldSchema := by
    conv_lhs => rw [strFieldSchema, enumToOpenApi]
    conv_rhs => rw [strFieldSchema]
    simp [unionAllConst]
  have hHS : enumToOpenApi headersSchemaW = headersSchemaW := by
    conv_lhs => rw [headersSchemaW, headersFieldsW, enumToOpenApi]
    conv_rhs => rw [headersSchemaW, headersFieldsW]
    simp [unionAllConst, enumProps_eq_map, hS]
  have hu : unwrapReference (unwrapSchemaR (some headersSchemaW)
      (fun _ => none) .input) [] = some headersSchemaW := by
    have hu1 : unwrapSchemaR (some headersSchemaW) (fun _ => none) .input =
        some (enumToOpenApi headersSchemaW) :=
      unwrapSchemaR_tb_kind headersFieldsW _ _ rfl
    rw [hu1, hHS]
    rfl
  have hmain := claim_C3_headers_parameters (fun _ => none) []
    { headers := some headersSchemaW } "/p" headersSchemaW
    [("x-token", strFieldSchema)] hu rfl rfl rfl
  refine ⟨hu, ?_⟩
  rw [hmain]
  rfl

-- ===========================================================================
-- C6: explicit operationId precedence
-- ===========================================================================

theorem foldl_setKey_mem {α : Type} (v : α) (mk : String) (op : α) :
    ∀ (ms : List String) (c : List (String × α)),
      lookupKey (ms.foldl (fun c mm => setKey c mm v) c) mk = some op →
      lookupKey c mk = some op ∨ op = v := by
  intro ms
  induction ms with
  | nil => exact fun c h => Or.inl h
  | cons m ms2 ih =>
    intro c h
    rcases ih (setKey c m v) h with h1 | h1
    · rw [lookupKey_setKey] at h1
      by_cases hm : mk = m
      · rw [if_pos hm] at h1
        exact Or.inr (Option.some.inj h1).symm
      · rw [if_neg hm] at h1
        exact Or.inl h1
    · exact Or.inr h1

theorem emit_fold_inv (oid : String) (bodyFor : List Char → Operation)
    (tpathFor : List Char → String) (ms : List String)
    (hoid : ∀ pl, (bodyFor pl).operationId = oid) :
    ∀ (pls : List (List Char))
      (paths0 acc : List (String × List (String × Operation))),
      (∀ pk mk op, lookupKey ((lookupKey acc pk).getD []) mk = some op →
        lookupKey ((lookupKey paths0 pk).getD []) mk = some op ∨
          op.operationId = oid) →
      ∀ pk mk op,
        lookupKey ((lookupKey (pls.foldl (fun acc pl =>
            setKey acc (tpathFor pl)
              (ms.foldl (fun c mm => setKey c mm (bodyFor pl))
                ((lookupKey acc (tpathFor pl)).getD []))) acc) pk).getD [])
          mk = some op →
        lookupKey ((lookupKey paths0 pk).getD []) mk = some op ∨
          op.operationId = oid := by
  intro pls
  induction pls with
  | nil => exact fun paths0 acc hacc => hacc
  | cons pl pls2 ih =>
    intro paths0 acc hacc
    rw [List.foldl_cons]
    refine ih paths0 _ ?_
    intro pk mk op hop
    rw [lookupKey_setKey] at hop
    by_cases hpk : pk = tpathFor pl
    · rw [if_pos hpk] at hop
      simp only [Option.getD_some] at hop
      rcases foldl_setKey_mem (bodyFor pl) mk op ms _ hop with h1 | h1
      · exact hacc pk mk op (by rw [hpk]; exact h1)
      · right
        rw [h1]
        exact hoid pl
    · rw [if_neg hpk] at hop
      exact hacc pk mk op hop

/-- C6: for a route whose detail carries an explicit `operationId`, every
operation the route writes into the paths object — one per expanded path,
per method — carries that explicit identifier: any operation found in the
output that was not already in the incoming paths object has it, so the
synthesized method/path identifier is never used. -/
theorem claim_C6_operation_id (vendors : MapJsonSchema)
    (defs : List (String × SV))
    (paths : List (String × List (String × Operation))) (route : Route)
    (hooks : Hooks) (method : String) (d : Detail) (oid : String)
    (hd : hooks.detail = some d) (ho : d.operationId = some oid) :
    ∀ pk mk op,
      lookupKey ((lookupKey (emitRoute vendors defs paths route hooks method)
          pk).getD []) mk = some op →
      lookupKey ((lookupKey paths pk).getD []) mk = some op ∨
        op.operationId = oid := by
  unfold emitRoute
  exact emit_fold_inv oid
    (fun pl =>
      { detail := hooks.detail.getD {},
        parameters :=
          if (buildParameters vendors defs hooks route.path).length > 0 then
            some (buildParameters vendors defs hooks route.path)
          else none,
        requestBody := buildRequestBody vendors defs hooks method,
        responses := buildResponses vendors defs hooks.response,
        operationId := (hooks.detail.bind Detail.operationId).getD
          (toOperationId route.method (String.mk pl)) })
    (fun pl => String.mk (templatize pl))
    (if method ≠ "all" then [method] else allMethods)
    (fun pl => by simp [hd, ho])
    (getPossiblePathRun route.path.data) paths paths
    (fun pk mk op h => Or.inl h)

/-- A concrete detail bag carrying an explicit operation identifier. -/
def detailW : Detail := { operationId := some "myOp" }

/-- A concrete hook bag with only the detail set. -/
def hooksW : Hooks := { detail := some detailW }

/-- A concrete route carrying the hook bag above. -/
def routeW : Route := { method := "GET", path := "/a", hooks := some hooksW }

/-- The operation the route above emits. -/
def opW : Operation :=
  { detail := detailW, parameters := none, requestBody := none,
    responses := none, operationId := "myOp" }

theorem claim_C6_operation_id_witness :
    (hooksW.detail = some detailW) ∧
    (detailW.operationId = some "myOp") ∧
    (lookupKey ((lookupKey (emitRoute (fun _ => none) [] [] routeW hooksW
        "get") "/a").getD []) "get" = some opW) ∧
    (lookupKey ((lookupKey ([] : List (String × List (String × Operation)))
        "/a").getD []) "get" = some opW ∨ opW.operationId = "myOp") :=
  ⟨rfl, rfl, rfl,
    claim_C6_operation_id (fun _ => none) [] [] routeW hooksW "get" detailW
      "myOp" rfl rfl "/a" "get" opW rfl⟩

-- ===========================================================================
-- C7: frame effect of reference filling
-- ===========================================================================

/-- The value a status map slot holds under a status key. -/
def slotKeyVal : Option RespSlot → String → Option SV
  | some (.map m), st => lookupKey m st
  | _, _ => none

/-- Value version of `respFold_persist`: under the same no-wrap conditions a
truthy status key keeps its exact prior value. -/
theorem respFold_persist_val (es : List (String × SV)) :
    ∀ m st, respSchemaLike (.map m) = false → truthyLookup m st = true →
      (∀ p ∈ es, p.2.truthy = true) →
      (∀ p ∈ es.dropLast, typeishKey p.1 = false) →
      slotKeyVal (respFold (some (.map m)) es) st = lookupKey m st := by
  induction es with
  | nil => intro m st _ _ _ _; rfl
  | cons e rest ih =>
    intro m st hsl htr hval hdl
    rw [respFold_cons]
    have hbase : respBase (some (.map m)) = m := by
      unfold respBase
      simp [respSlotFalsy, hsl]
    rcases e with ⟨st1, sch1⟩
    have hch : sch1.truthy = true := hval (st1, sch1) (List.mem_cons_self _ _)
    by_cases ht : truthyLookup m st1
    · have hstep : respStepO (some (.map m)) (st1, sch1) = some (.map m) := by
        simp [respStepO, respStep_eq, hbase, ht]
      rw [hstep]
      cases rest with
      | nil => rfl
      | cons e2 rest2 =>
        refine ih m st hsl htr
          (fun p hp => hval p (List.mem_cons_of_mem _ hp)) ?_
        intro p hp
        refine hdl p ?_
        rw [List.dropLast_cons₂]
        exact List.mem_cons_of_mem _ hp
    · have hstep : respStepO (some (.map m)) (st1, sch1) =
          some (.map (setKey m st1 sch1)) := by
        simp [respStepO, respStep_eq, hbase, ht]
      rw [hstep]
      have hne : st ≠ st1 := by
        intro hc
        rw [hc] at htr
        rw [htr] at ht
        exact ht rfl
      have hval1 : lookupKey (setKey m st1 sch1) st = lookupKey m st := by
        rw [lookupKey_setKey, if_neg hne]
      have htr2 : truthyLookup (setKey m st1 sch1) st = true := by
        rw [truthyLookup_setKey, if_neg hne]
        exact htr
      cases rest with
      | nil => simpa [respFold, slotKeyVal] using hval1
      | cons e2 rest2 =>
        have hty1 : typeishKey st1 = false := by
          refine hdl (st1, sch1) ?_
          rw [List.dropLast_cons₂]
          exact List.mem_cons_self _ _
        have hnsl2 : respSchemaLike (.map (setKey m st1 sch1)) = false := by
          have := respStep_sl (some (.map m)) st1 sch1 hch
          rw [hstep] at this
          simpa [slotSLMap, hty1] using this
        rw [← hval1]
        refine ih _ st hnsl2 htr2
          (fun p hp => hval p (List.mem_cons_of_mem _ hp)) ?_
        intro p hp
        refine hdl p ?_
        rw [List.dropLast_cons₂]
        exact List.mem_cons_of_mem _ hp

/-- C7 counterexample: a response slot that is a status map carrying both a
truthy `type` key and a populated `204` entry is schema-like, so one valid
reference entry re-keys it as a lone `200` wrapper — the populated `204`
per-status entry does not keep its prior value (it is no longer present at
the top level), contradicting the claim that already-populated slots are
never overwritten. -/
theorem claim_C7_counterexample :
    truthyLookup [("type", SV.str "object"), ("204", SV.str "no-content")]
      "204" = true ∧
    (fillOne { response := some (.map [("type", SV.str "object"),
        ("204", SV.str "no-content")]) }
      { response := some [("404",
          SV.tb { kindSym := some "String", type := some "string" })] }).response =
      some (.map [("200", SV.other true),
        ("404", SV.tb { kindSym := some "String", type := some "string" })]) ∧
    lookupKey [("200", SV.other true),
      ("404", SV.tb { kindSym := some "String", type := some "string" })]
      "204" = none :=
  ⟨rfl, rfl, rfl⟩

/-- C7 (amended): reference filling only fills: a truthy body, query,
params or headers slot is returned unchanged; the cookie, detail, parse and
standalone-validator fields are never touched; and a non-schema-like status
map keeps the exact value of every truthy status entry provided the filled
statuses are status codes (none of the schema-marker keys `type`, `$ref`,
`~standard` — a schema-like response value is instead re-keyed under `200`,
see the counterexample). -/
theorem claim_C7_amended (h : Hooks) (refs : List AdditionalReference)
    (p m : String) :
    ((optTruthy h.body = true → (fillHooks h refs p m).body = h.body) ∧
     (optTruthy h.query = true → (fillHooks h refs p m).query = h.query) ∧
     (optTruthy h.params = true → (fillHooks h refs p m).params = h.params) ∧
     (optTruthy h.headers = true →
       (fillHooks h refs p m).headers = h.headers)) ∧
    ((fillHooks h refs p m).cookie = h.cookie ∧
     (fillHooks h refs p m).detail = h.detail ∧
     (fillHooks h refs p m).parse = h.parse ∧
     (fillHooks h refs p m).standaloneValidator = h.standaloneValidator) ∧
    (∀ m0 st, h.response = some (.map m0) →
      respSchemaLike (.map m0) = false →
      truthyLookup m0 st = true →
      (∀ q ∈ respEntriesOf (matchedRefers refs p m), typeishKey q.1 = false) →
      slotKeyVal ((fillHooks h refs p m).response) st = lookupKey m0 st) := by
  refine ⟨⟨?_, ?_, ?_, ?_⟩, ⟨?_, ?_, ?_, ?_⟩, ?_⟩
  · intro hb
    rw [fillHooks_eq_matched, foldl_fillOne_body]
    exact slotFold_frozen _ _ (by
      rw [optTruthy_eq_not_slotFalsy] at hb
      simpa using hb)
  · intro hb
    rw [fillHooks_eq_matched, foldl_fillOne_query]
    exact slotFold_frozen _ _ (by
      rw [optTruthy_eq_not_slotFalsy] at hb
      simpa using hb)
  · intro hb
    rw [fillHooks_eq_matched, foldl_fillOne_params]
    exact slotFold_frozen _ _ (by
      rw [optTruthy_eq_not_slotFalsy] at hb
      simpa using hb)
  · intro hb
    rw [fillHooks_eq_matched, foldl_fillOne_headers]
    exact slotFold_frozen _ _ (by
      rw [optTruthy_eq_not_slotFalsy] at hb
      simpa using hb)
  · exact fillHooks_cookie _ _ _ _
  · exact fillHooks_detail _ _ _ _
  · exact fillHooks_parse _ _ _ _
  · exact fillHooks_standalone _ _ _ _
  · intro m0 st hresp hnsl htr hnoty
    rw [fillHooks_eq_matched, foldl_fillOne_response, hresp]
    refine respFold_persist_val _ m0 st hnsl htr
      (respEntriesOf_truthy _) ?_
    intro q hq
    exact hnoty q (List.dropLast_subset _ hq)

/-- A concrete number-typed TypeBox schema. -/
def schemaC7 : SV := SV.tb { kindSym := some "Number", type := some "number" }

/-- A concrete non-schema-like status map response slot. -/
def respMapC7 : List (String × SV) := [("200", SV.str "okResp")]

/-- A concrete matching reference entry. -/
def referC7 : Refer :=
  { body := some schemaC7, response := some [("404", schemaC7)] }

/-- One additional-reference source mapping the route to `referC7`. -/
def refsC7 : List AdditionalReference := [[("/a", [("get", referC7)])]]

/-- A concrete hook bag with a populated body and a populated status map. -/
def hooksC7 : Hooks :=
  { body := some schemaC7, response := some (.map respMapC7) }

theorem claim_C7_amended_witness :
    optTruthy hooksC7.body = true ∧
    (fillHooks hooksC7 refsC7 "/a" "get").body = hooksC7.body ∧
    hooksC7.response = some (.map respMapC7) ∧
    respSchemaLike (.map respMapC7) = false ∧
    truthyLookup respMapC7 "200" = true ∧
    (∀ q ∈ respEntriesOf (matchedRefers refsC7 "/a" "get"),
      typeishKey q.1 = false) ∧
    slotKeyVal ((fillHooks hooksC7 refsC7 "/a" "get").response) "200" =
      lookupKey respMapC7 "200" := by
  refine ⟨rfl, ?_, rfl, rfl, rfl, ?_, ?_⟩
  · exact (claim_C7_amended hooksC7 refsC7 "/a" "get").1.1 rfl
  · decide
  · exact (claim_C7_amended hooksC7 refsC7 "/a" "get").2.2 respMapC7 "200"
      rfl rfl rfl (by decide)

-- ===========================================================================
-- C4: void responses (code bug)
-- ===========================================================================

/-- The `t.Void(\x7b description: 'Void response' \x7d)` schema of the repo's own
regression test. -/
def voidSchemaC4 : TBF SV :=
  { kindSym := some "Void", type := some "void",
    description := some "Void response" }

/-- C4 [code bug]: for the repo test's route `response: \x7b 204: t.Void(\x7b
description: 'Void response' \x7d) \x7d`, the emitted `204` response entry carries
the description but ALSO carries a `content` key, holding the destructured
`\x7b type, description \x7d` object (`content: \x7b type: 'void', description: 'Void
response' \x7d`): the source's void/null/undefined branch assigns that object to
`content` instead of omitting the key, so the spec's (and the repo test's)
"no `content` key at all" is violated by the code. -/
theorem claim_C4_void_content_bug :
    buildResponses (fun _ => none) []
        (some (.map [("204", SV.tb voidSchemaC4)])) =
      some [("204",
        { descr := "Void response",
          content := RespContent.voidish (some "void")
            (some "Void response") })] := by
  have hv : enumToOpenApi (SV.tb voidSchemaC4) = SV.tb voidSchemaC4 := by
    conv_lhs => rw [voidSchemaC4, enumToOpenApi]
    conv_rhs => rw [voidSchemaC4]
    simp [unionAllConst]
  have hu : unwrapSchemaR (some (SV.tb voidSchemaC4)) (fun _ => none)
      .output = some (SV.tb voidSchemaC4) := by
    rw [unwrapSchemaR_tb_kind voidSchemaC4 _ _ rfl, hv]
  unfold buildResponses
  rw [if_neg (by decide)]
  dsimp only
  rw [if_neg (by decide)]
  simp only [RespSlot.statusEntries, List.foldl_cons, List.foldl_nil]
  rw [hu]
  rfl

end ElysiaOpenapi
